import Mathlib

/-!
# Verification of the SuperReader hierarchy reconstruction, summary worker,
# annotation framework and tree serializer

This file gives a shallow embedding of the algorithmic core of the
SuperReader repository and proves properties of it.

* `find_and_attach_children` (src/reader/build_html_tree.py) is embedded as a
  fuel-indexed function that, instead of mutating `Node` objects in place,
  emits the ordered list of `change_parent` operations it performs, the list
  of oracle queries it makes, and (as ghost instrumentation) the hierarchical
  forest it intends to build.  The mutable tree state is embedded as `St`
  (parent pointers plus ordered children lists) and the operations are applied
  to it by `applyOps`; `change_parent` itself is modelled from the spec
  (the fibers `Node` class is not part of the repository sources): it detaches
  the node from its current parent's child list and appends it to the end of
  the new parent's child list.
* The LLM oracle is embedded as a deterministic function from the queried
  candidate list to the list of integer indices found in the parsed response
  (`top_headers`).  Python list indexing, including negative-index wraparound
  and `IndexError`, is embedded by `pyIndex`.
* The `tenacity` `@retry(stop=stop_after_attempt(3), wait=wait_fixed(2))`
  decorator is embedded by `retryRun`.
* The summary worker `generate_summary_for_node` together with
  `generate_summary_for_leaf_node` / `generate_summary_for_section_node`
  (src/reader/build_summary.py, src/reader/build_html_tree.py) is embedded
  with its fallible LLM calls as `Except`-valued oracles.
* The annotation framework (src/tree/node_attr/base.py) and the serializer
  (src/tree/forest.py) are embedded directly.
-/

namespace SuperReader

/-- A candidate node of the flat list handed to the hierarchy reconstructor:
title and content already populated, identified by a unique id
(spec §3: unique identifier assigned at creation). -/
structure Cand where
  id : Nat
  title : String
  content : String
deriving DecidableEq, Repr

/-- The ids of a candidate list, in order. -/
def idsOf (L : List Cand) : List Nat := L.map (fun c => c.id)

/-- Python list indexing `xs[i]`: `0 ≤ i < len` reads directly,
`-len ≤ i < 0` wraps around, anything else raises `IndexError`. -/
def pyIndex {α : Type} (xs : List α) (i : Int) : Except String α :=
  if 0 ≤ i ∧ i < (xs.length : Int) then
    match xs.get? i.toNat with
    | some a => .ok a
    | none => .error "IndexError: list index out of range"
  else if -(xs.length : Int) ≤ i ∧ i < 0 then
    match xs.get? (i + xs.length).toNat with
    | some a => .ok a
    | none => .error "IndexError: list index out of range"
  else .error "IndexError: list index out of range"

/-- The oracle behind `get_child_titles_from_llm`: the parsed
`response["top_headers"]` of the language model on a given candidate list.
It is a deterministic stub (spec §9: reconstruction is specified against
deterministic stub oracles). -/
abbrev Oracle := List Cand → List Int

/-- The list comprehension `[valid_titles[i] for i in section_title_index]`
(build_html_tree.py:133): resolve each index against the title list,
propagating the first `IndexError`. -/
def resolveTitles (valid_titles : List String) : List Int → Except String (List String)
  | [] => .ok []
  | i :: is =>
    match pyIndex valid_titles i with
    | .error e => .error e
    | .ok t =>
      match resolveTitles valid_titles is with
      | .error e => .error e
      | .ok ts => .ok (t :: ts)

/-- `get_child_titles_from_llm` (build_html_tree.py:107-134), without the
retry wrapper: the oracle's indices are mapped back to the candidates'
titles via `valid_titles = [node.title ...]`;
`section_titles = [valid_titles[i] for i in section_title_index]`. -/
def get_child_titles_from_llm (o : Oracle) (potential_children : List Cand) :
    Except String (List String) :=
  resolveTitles (potential_children.map (fun c => c.title)) (o potential_children)

/-- One `change_parent` call: `child.change_parent(parent)`. -/
structure Op where
  child : Nat
  parent : Nat
deriving DecidableEq, Repr

/-- Ghost instrumentation: the hierarchical tree of candidates that a
successful reconstruction run builds. -/
inductive PTree where
  | node (c : Cand) (ch : List PTree)
deriving Repr

/-- The result of a reconstruction call: the ordered `change_parent`
operations it performed, the ordered oracle queries it issued, and the
forest of candidate subtrees it placed under the parent (ghost data). -/
structure Run where
  ops : List Op
  queries : List (List Cand)
  forest : List PTree
deriving Repr

/-- `child_nodes_with_indices` (build_html_tree.py:162-165): the candidates
whose title occurs among the titles returned by the oracle, with their
original indices, in list order. -/
def detect (titles : List String) (L : List Cand) : List (Nat × Cand) :=
  L.enum.filter (fun ic => ic.2.title ∈ titles)

/-- The loop of step 3 (build_html_tree.py:174-196): for each detected child
(in order) attach it to the parent, compute the scope of potential
grandchildren `potential_children[index+1 : next_index]` (through the end of
the list for the last detected child) and recurse on it when non-empty.
`recur` is the recursive entry point (`find_and_attach_children` at the
next smaller fuel). -/
def scopeOf (L : List Cand) (i : Nat) : List (Nat × Cand) → List Cand
  | (i2, _) :: _ => (L.drop (i + 1)).take (i2 - (i + 1))
  | [] => L.drop (i + 1)

def attachLoop (recur : Nat → List Cand → Except String Run)
    (p : Nat) (L : List Cand) :
    List (Nat × Cand) → Except String Run
  | [] => .ok ⟨[], [], []⟩
  | (i, c) :: rest =>
    match (if (scopeOf L i rest).isEmpty then .ok ⟨[], [], []⟩
           else recur c.id (scopeOf L i rest)) with
    | .error e => .error e
    | .ok sub =>
      match attachLoop recur p L rest with
      | .error e => .error e
      | .ok tail =>
        .ok ⟨Op.mk c.id p :: (sub.ops ++ tail.ops),
             sub.queries ++ tail.queries,
             PTree.node c sub.forest :: tail.forest⟩

/-- `find_and_attach_children` (build_html_tree.py:137-204), fuel-indexed.
Empty candidate list: return (no op, no oracle call).  Otherwise query the
oracle once; an empty title list attaches every candidate directly to the
parent; otherwise the candidates before the first detected index are
attached to the parent, the step-3 loop runs, and step 4 re-runs the
reconstruction of the candidates after the last detected index with the
last detected child as parent.  The fuel only bounds the recursion depth;
`find_and_attach_children_no_fuel_error` below shows `L.length < fuel`
never exhausts it. -/
def find_and_attach_children (o : Oracle) :
    Nat → Nat → List Cand → Except String Run
  | 0, _, _ => .error "fuel exhausted"
  | fuel + 1, p, L =>
    if L.isEmpty then .ok ⟨[], [], []⟩
    else
      match get_child_titles_from_llm o L with
      | .error e => .error e
      | .ok titles =>
        if titles.isEmpty then
          .ok ⟨L.map (fun c => Op.mk c.id p), [L], L.map (fun c => PTree.node c [])⟩
        else
          match detect titles L with
          | [] => .error "IndexError: list index out of range"
          | (i1, _) :: _ =>
            match attachLoop (find_and_attach_children o fuel) p L
                (detect titles L) with
            | .error e => .error e
            | .ok loop =>
              match (detect titles L).getLast? with
              | none => .error "IndexError: list index out of range"
              | some (ik, ck) =>
                match (if (L.drop (ik + 1)).isEmpty then .ok ⟨[], [], []⟩
                       else find_and_attach_children o fuel ck.id
                         (L.drop (ik + 1))) with
                | .error e => .error e
                | .ok step4 =>
                  .ok ⟨(L.take i1).map (fun c => Op.mk c.id p) ++
                         (loop.ops ++ step4.ops),
                       L :: (loop.queries ++ step4.queries),
                       (L.take i1).map (fun c => PTree.node c []) ++ loop.forest⟩

/-- The mutable tree state: parent back-reference and ordered child list of
every node, by id.  Modelled from the spec: §3 Node data model (the fibers
`Node` class is not among the repository sources). -/
structure St where
  parent : Nat → Option Nat
  children : Nat → List Nat

/-- `node.change_parent(new_parent)`.  Modelled from the spec: §3 ownership
("detaching a child from one parent and attaching it to another transfers
ownership") and lifecycle ("attached to a parent via an explicit set parent
operation that also registers it in the parent's child list"): remove the
node from its current parent's child list, update the back-reference, and
append it at the end of the new parent's child list. -/
def change_parent (st : St) (c p : Nat) : St :=
  let removed : Nat → List Nat := fun q =>
    if st.parent c = some q then (st.children q).erase c else st.children q
  { parent := fun x => if x = c then some p else st.parent x
    children := fun q => if q = p then removed q ++ [c] else removed q }

/-- Apply a sequence of `change_parent` operations in order. -/
def applyOps (st : St) (ops : List Op) : St :=
  ops.foldl (fun s op => change_parent s op.child op.parent) st

/-- The state at the start of reconstruction: the parent node's child list
has been cleared (`doc.children = []`, build_html_tree.py:37) and the flat
candidates are detached. -/
def initSt : St := ⟨fun _ => none, fun _ => []⟩

/-- Depth-first traversal of the state's children structure from a node,
fuel-indexed (the state is an arbitrary graph a priori). -/
def dfs (st : St) : Nat → Nat → List Nat
  | 0, _ => []
  | fuel + 1, n => n :: ((st.children n).map (dfs st fuel)).flatten

/-- The id at the root of a placed subtree. -/
def rootId : PTree → Nat
  | .node c _ => c.id

/-- The ids at the roots of a placed forest, in order. -/
def rootIds (f : List PTree) : List Nat := f.map rootId

mutual
/-- All candidate ids of a placed subtree, in depth-first order. -/
def flattenT : PTree → List Nat
  | .node c ch => c.id :: flattenF ch
/-- All candidate ids of a placed forest, in depth-first order. -/
def flattenF : List PTree → List Nat
  | [] => []
  | t :: ts => flattenT t ++ flattenF ts
end

mutual
/-- The ordered child ids that a placed subtree assigns to the node `q`. -/
def chAssignT (q : Nat) : PTree → List Nat
  | .node c ch => (if c.id = q then rootIds ch else []) ++ chAssignF q ch
/-- The ordered child ids that a placed forest assigns to the node `q`. -/
def chAssignF (q : Nat) : List PTree → List Nat
  | [] => []
  | t :: ts => chAssignT q t ++ chAssignF q ts
end

mutual
/-- The parent that a placed subtree (whose root's parent is `pp`) gives to
the node `x`, if `x` occurs in it. -/
def parT (pp : Nat) (x : Nat) : PTree → Option Nat
  | .node c ch => if c.id = x then some pp else parF c.id x ch
/-- The parent that a placed forest (whose roots' parent is `pp`) gives to
the node `x`, if `x` occurs in it. -/
def parF (pp : Nat) (x : Nat) : List PTree → Option Nat
  | [] => none
  | t :: ts => (parT pp x t).orElse (fun _ => parF pp x ts)
end

mutual
/-- Height of a placed subtree. -/
def heightT : PTree → Nat
  | .node _ ch => heightF ch + 1
/-- Height of a placed forest. -/
def heightF : List PTree → Nat
  | [] => 0
  | t :: ts => max (heightT t) (heightF ts)
end

/-- The state invariant at a node id `x` that `change_parent` maintains:
`x`'s parent back-reference agrees with the child list containing it, and
`x` occurs at most once in any child list.  Holds trivially in `initSt`. -/
def OkAt (st : St) (x : Nat) : Prop :=
  (∀ q, x ∈ st.children q → st.parent x = some q) ∧
  (∀ q, (st.children q).count x ≤ 1)

/-- `OkAt` for every id of a region. -/
def Coherent (st : St) (S : List Nat) : Prop := ∀ x ∈ S, OkAt st x

/-- The semantics of a reconstruction run over the region `S` of candidate
ids, placed under the parent `p`: the run's ghost forest flattens to `S`,
and replaying the run's `change_parent` operations from any state that is
coherent on `S` removes the region's ids from every child list and installs
exactly the child assignments of the forest (the forest's roots under `p`). -/
def SemAt (p : Nat) (S : List Nat) (r : Run) : Prop :=
  flattenF r.forest = S ∧
  ∀ st, Coherent st S → ∀ q,
    (applyOps st r.ops).children q =
      (st.children q).filter (fun y => decide (y ∉ S)) ++
        ((if q = p then rootIds r.forest else []) ++ chAssignF q r.forest)

/-! ## The annotation framework (src/tree/node_attr/base.py) -/

/-- A node's annotation table `node.attrs`: an insertion-ordered map from
annotation kind (the Python class object, embedded as a `Nat` key) to the
annotation object.  Python dict semantics: membership is key lookup,
assignment appends a new key at the end. -/
abbrev AttrMap (α : Type) := List (Nat × α)

/-- `Attr.__init__` (src/tree/node_attr/base.py:10-15): if the node already
has an annotation of this kind, raise; otherwise register the annotation
under its kind.  The returned `Option String` is the raised error, and the
returned map is the node's annotation table after the call — the check
precedes the registration, so on error the table is returned unchanged
(Python exceptions do not roll back prior mutations; there are none before
the raise). -/
def Attr_init {α : Type} (attrs : AttrMap α) (kind : Nat) (a : α) :
    AttrMap α × Option String :=
  if (attrs.lookup kind).isSome then
    (attrs, some "Node already has attr")
  else
    (attrs ++ [(kind, a)], none)

/-! ## The retry wrapper (tenacity, build_html_tree.py:76,107) -/

/-- `@retry(stop=stop_after_attempt(n), wait=wait_fixed(wait))`:
run attempt `k`, `k+1`, ... while at most `rem` attempts remain, waiting
`wait` seconds before each re-attempt.  Returns the result (the first
success, or the last error once attempts are exhausted), the number of
attempts made, and the total seconds waited. -/
def retryRun {α : Type} (f : Nat → Except String α) (wait : Nat) :
    Nat → Nat → Except String α × Nat × Nat
  | _, 0 => (.error "retry error", 0, 0)
  | k, rem + 1 =>
    match f k with
    | .ok a => (.ok a, 1, 0)
    | .error e =>
      if rem = 0 then (.error e, 1, 0)
      else
        let r := retryRun f wait (k + 1) rem
        (r.1, r.2.1 + 1, r.2.2 + wait)

/-- `get_child_titles_from_llm` with its decorator
`@retry(stop=stop_after_attempt(3), wait=wait_fixed(2))`
(build_html_tree.py:107): the oracle may answer differently on each attempt
(`oSeq k` is the oracle behavior of attempt `k`). -/
def get_child_titles_retried (oSeq : Nat → Oracle) (pc : List Cand) :
    Except String (List String) × Nat × Nat :=
  retryRun (fun k => get_child_titles_from_llm (oSeq k) pc) 2 0 3

/-! ## The summary worker (src/reader/build_summary.py, build_html_tree.py)

The LLM chat calls are embedded as `Except`-valued oracle outcomes; an
`.error` outcome is a Python exception raised by `chat.complete` (network
or parse failure). -/

/-- The `Summary` annotation (src/reader/summary.py:17-23):
`content` starts as the empty string and is set to `None` for intentionally
skipped nodes, `short_content` starts empty, and `summaries_with_evidence`
holds the parsed key points. -/
structure SumAttr where
  content : Option String
  short_content : String
  summaries_with_evidence : List String
deriving DecidableEq, Repr

/-- A fresh `Summary(node)` annotation. -/
def SumAttr.init : SumAttr := ⟨some "", "", []⟩

/-- `Summary.get(node)` on a node's (possibly absent) annotation.
Modelled from the spec: the fibers `Node.get_attr` is not among the
repository sources; creation-on-access is forced by usages such as
`Summary.get(node).content = None` guarded by `if Summary not in
node.attrs` (build_html_tree.py:24-25). -/
def ensureSummary (s : Option SumAttr) : SumAttr := s.getD SumAttr.init

/-- A child as seen by the worker: its title, its content and whether it
carries a `Summary` annotation (and which). -/
structure ChildView where
  title : String
  content : String
  summary : Option SumAttr
deriving DecidableEq, Repr

/-- A node as seen by the worker. -/
structure WNode where
  label : String
  title : String
  content : String
  children : List ChildView
  summary : Option SumAttr
deriving DecidableEq, Repr

/-- The content rebuilt for a section node out of its children's titles and
short summaries (build_summary.py:80-87). -/
def sectionContent (children : List ChildView) : String :=
  String.intercalate "\n\n<br/>"
    (children.foldr
      (fun c acc =>
        ("<strong>" ++ c.title ++ "</strong>") ::
          ((if (ensureSummary c.summary).short_content ≠ ""
              then [(ensureSummary c.summary).short_content] else []) ++ acc))
      [])

/-- `generate_summary_for_leaf_node` (build_summary.py:107-142).
`oPoints` is the key-points chat call (guarded by `try`/`except`) and
`oTitle` the title chat call for untitled leaves (not guarded).
The `Summary.get(node)` in the prompt f-string runs before the `try`, so
the annotation exists afterwards in every case.  On key-point success a
fresh `PaperNode` child carrying the leaf's content and its own `Summary`
is appended. -/
def generate_summary_for_leaf_node (oPoints : Except String (List String))
    (oTitle : Except String String) (n : WNode) : Except String WNode :=
  let s0 := ensureSummary n.summary
  let n1 :=
    match oPoints with
    | .ok pts =>
      { n with summary := some { s0 with summaries_with_evidence := pts }
               children := n.children ++ [⟨"", n.content, some SumAttr.init⟩] }
    | .error _ =>
      { n with summary := some { s0 with content := some "Failed to generate summary" } }
  if n1.title = "" then
    match oTitle with
    | .ok t => .ok { n1 with title := "¶ " ++ t }
    | .error e => .error e
  else .ok n1

/-- `generate_summary_for_section_node` (build_summary.py:50-105).
`oPoints` is the key-points chat call (guarded by `try`/`except`, the
failure placeholder is recorded in `content`) and `oShort` the short
summary chat call (not guarded). -/
def generate_summary_for_section_node (oPoints : Except String (List String))
    (oShort : Except String String) (n : WNode) : Except String WNode :=
  let n1 :=
    match oPoints with
    | .ok pts =>
      { n with summary := some { ensureSummary n.summary with summaries_with_evidence := pts }
               content := sectionContent n.children }
    | .error _ =>
      { n with summary := some { ensureSummary n.summary with content := some "Failed to generate summary" } }
  match oShort with
  | .ok sh =>
    .ok { n1 with summary := some { ensureSummary n1.summary with short_content := sh } }
  | .error e => .error e

/-- The four chat-call outcomes a single worker invocation can consume. -/
structure SummaryOracle where
  leafPoints : Except String (List String)
  leafTitle : Except String String
  secPoints : Except String (List String)
  secShort : Except String String

/-- `generate_summary_for_node` (build_html_tree.py:15-26): the worker `f`
of the dependency-ordered evaluator.  Returns the `Ready` boolean together
with the updated node; a raised exception is an `.error`. -/
def generate_summary_for_node (o : SummaryOracle) (n : WNode) :
    Except String (Bool × WNode) :=
  if n.children.length = 0 then do
    let n1 ← generate_summary_for_leaf_node o.leafPoints o.leafTitle n
    .ok (true, n1)
  else if n.children.length > 0 then
    if n.children.any (fun c => c.summary = none) then .ok (false, n)
    else do
      let n1 ← generate_summary_for_section_node o.secPoints o.secShort n
      .ok (true, n1)
  else
    .ok (true,
      if n.summary = none then
        { n with summary := some { SumAttr.init with content := none } }
      else n)

/-- `generate_summary_for_node` (build_summary.py:32-47): the variant with
the figure/table early return (`Summary.get(node).content = None;
return True`). -/
def generate_summary_for_node_bs (o : SummaryOracle) (n : WNode) :
    Except String (Bool × WNode) :=
  if n.label = "figure" ∨ n.label = "table" then
    .ok (true, { n with summary := some { ensureSummary n.summary with content := none } })
  else generate_summary_for_node o n

/-! ## The tree serializer (src/tree/forest.py) -/

/-- The wire record of one node (`NodeJson`, forest.py:18-27); the
annotation-filled display fields (`tabs`, `tools`, `data`) are opaque to
the properties below and omitted. -/
structure NodeJson where
  title : String
  id : String
  parent : Option String
  children : List String
  nodeTypeName : String
deriving DecidableEq, Repr

/-- A rendered node (`Rendered`, forest.py:34-42): the `Rendered` tree
mirrors the `Node` tree (`Renderer.render`, forest.py:79-84). -/
inductive RNode where
  | mk (node_id : Nat) (title : String) (children : List RNode)
deriving Repr

/-- The node id of a rendered node. -/
def RNode.nid : RNode → Nat
  | .mk i _ _ => i

/-- The title of a rendered node. -/
def RNode.rtitle : RNode → String
  | .mk _ t _ => t

/-- The children of a rendered node. -/
def RNode.ch : RNode → List RNode
  | .mk _ _ ch => ch

/-- `Rendered.to_json_without_children` (forest.py:53-68).  `par` is the
string id of the node's parent (`str(self.node._parent.node_id)`),
`none` for the root; the claim's premise is a tree whose root has a null
parent reference and whose child nodes' back-references point at their
actual parents, so the parent id is the id of the node this one was
reached from. -/
def to_json_without_children (par : Option String) (n : RNode) : NodeJson :=
  { title := n.rtitle
    id := toString n.nid
    parent := par
    children := n.ch.map (fun c => toString c.nid)
    nodeTypeName := "" }

mutual
/-- `Rendered.to_json` (forest.py:44-51): skip if the id is already a key,
otherwise build the record, recurse into the children, then append the
record keyed by the string form of the id (Python dicts append new keys at
the end). -/
def to_json (par : Option String) : RNode → List (String × NodeJson) →
    List (String × NodeJson)
  | .mk i t ch, dict =>
    if (dict.map Prod.fst).contains (toString i) then dict
    else
      to_json_list (some (toString i)) ch dict ++
        [(toString i, to_json_without_children par (.mk i t ch))]
/-- The `for child in self.children: child.to_json(node_dict)` loop of
`Rendered.to_json`. -/
def to_json_list (par : Option String) : List RNode → List (String × NodeJson) →
    List (String × NodeJson)
  | [], dict => dict
  | c :: cs, dict => to_json_list par cs (to_json par c dict)
end

/-- The serialized tree (`TreeData`, forest.py:29-31): metadata with the
root id, plus the node dictionary. -/
structure TreeData where
  rootId : String
  nodeDict : List (String × NodeJson)
deriving DecidableEq, Repr

/-- `Renderer.render_to_json` (forest.py:86-94). -/
def render_to_json (n : RNode) : TreeData :=
  { rootId := toString n.nid, nodeDict := to_json none n [] }

mutual
/-- All node ids of a rendered tree, preorder. -/
def allIdsT : RNode → List Nat
  | .mk i _ ch => i :: allIdsF ch
/-- All node ids of a rendered forest, preorder. -/
def allIdsF : List RNode → List Nat
  | [] => []
  | t :: ts => allIdsT t ++ allIdsF ts
end

/-- The string forms of all node ids of a rendered tree. -/
def allStrT (n : RNode) : List String := (allIdsT n).map toString

mutual
/-- The dictionary entries `Rendered.to_json` appends for one subtree, in
order (children first, then the node itself — Python dict insertion
order). -/
def entriesT (par : Option String) : RNode → List (String × NodeJson)
  | .mk i t ch =>
    entriesF (some (toString i)) ch ++
      [(toString i, to_json_without_children par (.mk i t ch))]
/-- The dictionary entries appended for a forest of subtrees. -/
def entriesF (par : Option String) : List RNode → List (String × NodeJson)
  | [] => []
  | c :: cs => entriesT par c ++ entriesF par cs
end

/-! ## Support lemmas -/

theorem except_bind_ok {ε α β : Type} (x : Except ε α) (f : α → Except ε β) (b : β) :
    (x >>= f) = .ok b ↔ ∃ a, x = .ok a ∧ f a = .ok b := by
  cases x <;> simp [Bind.bind, Except.bind]

theorem except_bind_err {ε α β : Type} (x : Except ε α) (f : α → Except ε β) (e : ε) :
    (x >>= f) = .error e ↔ x = .error e ∨ ∃ a, x = .ok a ∧ f a = .error e := by
  cases x <;> simp [Bind.bind, Except.bind]

theorem retryRun_attempts_le {α : Type} (f : Nat → Except String α) (w : Nat) :
    ∀ rem k, (retryRun f w k rem).2.1 ≤ rem := by
  intro rem
  induction rem with
  | zero => intro k; simp [retryRun]
  | succ rem ih =>
    intro k
    unfold retryRun
    cases f k with
    | ok a => simp
    | error e =>
      by_cases h : rem = 0
      · simp [h]
      · simpa [h] using Nat.succ_le_succ (ih (k + 1))

theorem resolveTitles_cons (vt : List String) (i : Int) (is : List Int)
    (ts : List String) (h : resolveTitles vt (i :: is) = .ok ts) :
    ∃ t ts2, pyIndex vt i = .ok t ∧ resolveTitles vt is = .ok ts2 ∧ ts = t :: ts2 := by
  unfold resolveTitles at h
  cases hj : pyIndex vt i with
  | error e => rw [hj] at h; cases h
  | ok t =>
    rw [hj] at h
    cases hjs : resolveTitles vt is with
    | error e => rw [hjs] at h; cases h
    | ok ts2 =>
      rw [hjs] at h
      cases h
      exact ⟨t, ts2, rfl, rfl, rfl⟩

theorem resolveTitles_ok_forall (vt : List String) :
    ∀ (is : List Int) (ts : List String), resolveTitles vt is = .ok ts →
      ∀ i ∈ is, ∃ t, pyIndex vt i = .ok t := by
  intro is
  induction is with
  | nil => intro ts _ i hi; cases hi
  | cons j js ih =>
    intro ts h i hi
    obtain ⟨t, ts2, ht, hts2, rfl⟩ := resolveTitles_cons vt j js ts h
    rcases List.mem_cons.mp hi with rfl | hmem
    · exact ⟨t, ht⟩
    · exact ih ts2 hts2 i hmem

theorem pyIndex_out_of_range {α : Type} (xs : List α) (i : Int)
    (h : (xs.length : Int) ≤ i ∨ i < -(xs.length : Int)) :
    pyIndex xs i = .error "IndexError: list index out of range" := by
  unfold pyIndex
  rcases h with h | h
  · have h0 : (0 : Int) ≤ i := le_trans (by positivity) h
    rw [if_neg (by omega), if_neg (by omega)]
  · rw [if_neg (by omega), if_neg (by omega)]

theorem pyIndex_mem {α : Type} (xs : List α) (i : Int) (a : α)
    (h : pyIndex xs i = .ok a) : a ∈ xs := by
  unfold pyIndex at h
  split at h
  · cases hg : xs.get? i.toNat with
    | none => rw [hg] at h; cases h
    | some b => rw [hg] at h; cases h; exact List.get?_mem hg
  · split at h
    · cases hg : xs.get? (i + xs.length).toNat with
      | none => rw [hg] at h; cases h
      | some b => rw [hg] at h; cases h; exact List.get?_mem hg
    · cases h

/-- If the oracle's title list resolves successfully, every returned title
is the title of one of the candidates. -/
theorem resolveTitles_mem (vt : List String) :
    ∀ (is : List Int) (ts : List String), resolveTitles vt is = .ok ts →
      ∀ t ∈ ts, t ∈ vt := by
  intro is
  induction is with
  | nil =>
    intro ts h t ht
    unfold resolveTitles at h
    cases h; cases ht
  | cons j js ih =>
    intro ts h t ht
    obtain ⟨t0, ts2, ht0, hts2, rfl⟩ := resolveTitles_cons vt j js ts h
    rcases List.mem_cons.mp ht with rfl | hmem
    · exact pyIndex_mem _ _ _ ht0
    · exact ih ts2 hts2 t hmem

theorem detect_nil_titles (L : List Cand) : detect [] L = [] := by
  simp [detect]

/-- Attaching a list of detached nodes (parent reference `none`) one after
the other appends them, in order, to the new parent's child list. -/
theorem applyOps_attach_fresh (p : Nat) :
    ∀ (xs : List Nat) (st : St), (∀ x ∈ xs, st.parent x = none) → xs.Nodup →
      (applyOps st (xs.map (fun x => Op.mk x p))).children p = st.children p ++ xs := by
  intro xs
  induction xs with
  | nil => intro st _ _; simp [applyOps]
  | cons x xs ih =>
    intro st hpar hnd
    have hx : st.parent x = none := hpar x (List.mem_cons_self x xs)
    have hstep : applyOps st ((x :: xs).map (fun y => Op.mk y p)) =
        applyOps (change_parent st x p) (xs.map (fun y => Op.mk y p)) := by
      simp [applyOps]
    rw [hstep]
    have hpar2 : ∀ y ∈ xs, (change_parent st x p).parent y = none := by
      intro y hy
      have hyx : y ≠ x := fun h => (List.nodup_cons.mp hnd).1 (h ▸ hy)
      simp [change_parent, hyx]
      exact hpar y (List.mem_cons_of_mem x hy)
    rw [ih (change_parent st x p) hpar2 (List.nodup_cons.mp hnd).2]
    simp [change_parent, hx]

/-- **C10.** Attaching an annotation of a kind the node already carries
raises an error, and the failed attach leaves the node's annotation table
unchanged: the first annotation of that kind remains registered and no
second one is added (src/tree/node_attr/base.py:10-15: the duplicate check
precedes the registration). -/
theorem attr_duplicate_attach_fails {α : Type} (attrs : AttrMap α) (kind : Nat)
    (a v : α) (h : attrs.lookup kind = some v) :
    (Attr_init attrs kind a).2.isSome ∧
      (Attr_init attrs kind a).1 = attrs ∧
      (Attr_init attrs kind a).1.lookup kind = some v := by
  unfold Attr_init
  rw [if_pos (by simp [h])]
  exact ⟨rfl, rfl, h⟩

/-- Witness for C10 at a concrete annotation table. -/
theorem attr_duplicate_attach_fails_witness :
    ([(5, 3)] : AttrMap Nat).lookup 5 = some 3 ∧
      (Attr_init [(5, 3)] 5 (7 : Nat)).2.isSome ∧
      (Attr_init [(5, 3)] 5 (7 : Nat)).1 = [(5, 3)] ∧
      (Attr_init [(5, 3)] 5 (7 : Nat)).1.lookup 5 = some 3 :=
  ⟨by decide, attr_duplicate_attach_fails [(5, 3)] 5 7 3 (by decide)⟩

theorem detect_mem_get? {titles : List String} {L : List Cand} {i : Nat} {c : Cand}
    (h : (i, c) ∈ detect titles L) : L.get? i = some c := by
  have hm := (List.mem_filter.mp h).1
  have := List.mk_mem_enum_iff_getElem?.mp hm
  simpa [List.get?_eq_getElem?] using this

theorem detect_pairwise (titles : List String) (L : List Cand) :
    List.Pairwise (fun a b => a.1 < b.1) (detect titles L) := by
  have h1 : List.Pairwise (fun (a b : Nat × Cand) => a.1 < b.1) L.enum := by
    have h2 : List.Pairwise (· < ·) (L.enum.map Prod.fst) := by
      rw [List.enum_map_fst]; exact List.pairwise_lt_range _
    rwa [List.pairwise_map] at h2
  exact h1.filter _

theorem detect_mem_title {titles : List String} {L : List Cand} {i : Nat} {c : Cand}
    (h : (i, c) ∈ detect titles L) : c.title ∈ titles := by
  have := (List.mem_filter.mp h).2
  simpa using this

theorem detect_mem_iff (titles : List String) (L : List Cand) (c : Cand) :
    (∃ i, (i, c) ∈ detect titles L) ↔ (c ∈ L ∧ c.title ∈ titles) := by
  constructor
  · rintro ⟨i, hi⟩
    exact ⟨List.get?_mem (detect_mem_get? hi), detect_mem_title hi⟩
  · rintro ⟨hc, ht⟩
    obtain ⟨i, hi⟩ := List.mem_iff_get?.mp hc
    refine ⟨i, List.mem_filter.mpr ⟨?_, by simpa using ht⟩⟩
    rw [List.mk_mem_enum_iff_getElem?]
    simpa [List.get?_eq_getElem?] using hi

/-- **C9.** An oracle call that fails (including a malformed response whose
indices cannot be resolved against the candidate list, since the index
resolution happens inside the retried function) is retried up to the fixed
bound of 3 attempts with a fixed 2-second backoff (total wait 4 seconds
over the 2 re-attempts); after the attempts are exhausted the last error is
returned, and an erroring oracle call makes the whole reconstruction call
fail with that error (the `Except` propagates, no partial result). -/
theorem oracle_failure_retried_and_propagates :
    (∀ (oSeq : Nat → Oracle) (pc : List Cand) (e0 e1 e2 : String),
      get_child_titles_from_llm (oSeq 0) pc = .error e0 →
      get_child_titles_from_llm (oSeq 1) pc = .error e1 →
      get_child_titles_from_llm (oSeq 2) pc = .error e2 →
      get_child_titles_retried oSeq pc = (.error e2, 3, 4)) ∧
    (∀ (oSeq : Nat → Oracle) (pc : List Cand),
      (get_child_titles_retried oSeq pc).2.1 ≤ 3) ∧
    (∀ (o : Oracle) (fuel p : Nat) (L : List Cand) (e : String), L ≠ [] →
      get_child_titles_from_llm o L = .error e →
      find_and_attach_children o (fuel + 1) p L = .error e) := by
  refine ⟨?_, ?_, ?_⟩
  · intro oSeq pc e0 e1 e2 h0 h1 h2
    simp [get_child_titles_retried, retryRun, h0, h1, h2]
  · intro oSeq pc
    exact retryRun_attempts_le _ 2 3 0
  · intro o fuel p L e hL herr
    unfold find_and_attach_children
    rw [if_neg (by simpa using hL)]
    rw [herr]

/-- Witness for C9: an oracle that always returns the out-of-range index 5
on a one-candidate list fails all three attempts and the reconstruction
fails. -/
theorem oracle_failure_retried_and_propagates_witness :
    get_child_titles_retried (fun _ => fun _ => [5]) [⟨1, "a", "b"⟩] =
      (.error "IndexError: list index out of range", 3, 4) ∧
      find_and_attach_children (fun _ => [5]) 1 0 [⟨1, "a", "b"⟩] =
        .error "IndexError: list index out of range" :=
  ⟨oracle_failure_retried_and_propagates.1 (fun _ => fun _ => [5]) [⟨1, "a", "b"⟩]
      _ _ _ rfl rfl rfl,
    oracle_failure_retried_and_propagates.2.2 (fun _ => [5]) 0 0 [⟨1, "a", "b"⟩]
      _ (by decide) rfl⟩

/-- **C7.** An empty candidate list returns at once: no `change_parent`
operation, no oracle query.  A non-empty list on which the oracle reports
no top-level headers makes exactly one oracle query, attaches every
candidate directly to the parent in original order, and recurses no
further; applying the emitted operations to the initial state leaves the
parent's child list equal to the candidate ids in order. -/
theorem reconstruction_base_cases :
    (∀ (o : Oracle) (fuel p : Nat),
      find_and_attach_children o (fuel + 1) p [] = .ok ⟨[], [], []⟩) ∧
    (∀ (o : Oracle) (fuel p : Nat) (L : List Cand), L ≠ [] → o L = [] →
      find_and_attach_children o (fuel + 1) p L =
        .ok ⟨L.map (fun c => Op.mk c.id p), [L], L.map (fun c => PTree.node c [])⟩) ∧
    (∀ (p : Nat) (L : List Cand), (idsOf L).Nodup →
      (applyOps initSt (L.map (fun c => Op.mk c.id p))).children p = idsOf L) := by
  refine ⟨?_, ?_, ?_⟩
  · intro o fuel p
    simp [find_and_attach_children]
  · intro o fuel p L hL ho
    have hg : get_child_titles_from_llm o L = .ok [] := by
      simp [get_child_titles_from_llm, ho, resolveTitles]
    unfold find_and_attach_children
    rw [if_neg (by simpa using hL)]
    rw [hg]
    rfl
  · intro p L hnd
    have hmap : L.map (fun c => Op.mk c.id p) = (idsOf L).map (fun x => Op.mk x p) := by
      simp [idsOf, List.map_map]
    rw [hmap, applyOps_attach_fresh p (idsOf L) initSt (fun x _ => rfl) hnd]
    rfl

/-- Witness for C7 at a two-candidate list with an oracle reporting no
top-level headers. -/
theorem reconstruction_base_cases_witness :
    find_and_attach_children (fun _ => []) 1 0 [] = .ok ⟨[], [], []⟩ ∧
      find_and_attach_children (fun _ => []) 1 0 [⟨1, "a", ""⟩, ⟨2, "b", ""⟩] =
        .ok ⟨[⟨1, 0⟩, ⟨2, 0⟩], [[⟨1, "a", ""⟩, ⟨2, "b", ""⟩]],
             [.node ⟨1, "a", ""⟩ [], .node ⟨2, "b", ""⟩ []]⟩ ∧
      (applyOps initSt [⟨1, 0⟩, ⟨2, 0⟩]).children 0 = [1, 2] :=
  ⟨reconstruction_base_cases.1 (fun _ => []) 0 0,
    reconstruction_base_cases.2.1 (fun _ => []) 0 0 [⟨1, "a", ""⟩, ⟨2, "b", ""⟩]
      (by decide) rfl,
    reconstruction_base_cases.2.2 0 [⟨1, "a", ""⟩, ⟨2, "b", ""⟩] (by decide)⟩

/-- **C1 counterexample.** Two candidates share the title `"T"`; the oracle
returns only index `0`, yet the run attaches the candidate at index `1`
(id 2) as a top-level child of the parent as well — the implementation maps
the returned indices back to titles and matches candidates by title, so
candidates sharing a title are *not* distinguished; a candidate whose index
was not returned is attached as a detected top-level child. -/
theorem index_addressing_counterexample :
    (fun l => if l = [(⟨1, "T", "x"⟩ : Cand), ⟨2, "T", "y"⟩] then [(0 : Int)] else [])
        [⟨1, "T", "x"⟩, ⟨2, "T", "y"⟩] = [0] ∧
    find_and_attach_children
        (fun l => if l = [(⟨1, "T", "x"⟩ : Cand), ⟨2, "T", "y"⟩] then [(0 : Int)] else [])
        3 0 [⟨1, "T", "x"⟩, ⟨2, "T", "y"⟩] =
      .ok ⟨[⟨1, 0⟩, ⟨2, 0⟩], [[⟨1, "T", "x"⟩, ⟨2, "T", "y"⟩]],
           [.node ⟨1, "T", "x"⟩ [], .node ⟨2, "T", "y"⟩ []]⟩ :=
  ⟨rfl, rfl⟩

/-- **C1 (amended).** The oracle's indices are resolved against the
candidates' title list and the detected top-level candidates are the ones
whose *title* equals a resolved title, so two candidates sharing a title
are not distinguished; an index `i` with `i ≥ len(C)` or `i < -len(C)`
raises an `IndexError` so the oracle call fails (negative in-range indices
are silently accepted with Python wraparound), and a failing call fails the
reconstruction step that issued it. -/
theorem index_resolution_matches_by_title :
    (∀ (o : Oracle) (L : List Cand) (i : Int), i ∈ o L →
      ((L.length : Int) ≤ i ∨ i < -(L.length : Int)) →
      ∃ e, get_child_titles_from_llm o L = .error e) ∧
    (∀ (titles : List String) (L : List Cand) (c : Cand),
      (∃ i, (i, c) ∈ detect titles L) ↔ (c ∈ L ∧ c.title ∈ titles)) := by
  constructor
  · intro o L i hi hoor
    cases hres : get_child_titles_from_llm o L with
    | error e => exact ⟨e, rfl⟩
    | ok ts =>
      exfalso
      unfold get_child_titles_from_llm at hres
      obtain ⟨t, ht⟩ := resolveTitles_ok_forall _ _ _ hres i hi
      rw [pyIndex_out_of_range _ i (by simpa using hoor)] at ht
      cases ht
  · exact detect_mem_iff

/-- Witness for the amended C1: on a two-candidate list, index 7 is out of
range and the call fails; the candidate with the duplicate title is
detected although only index 0 was returned. -/
theorem index_resolution_matches_by_title_witness :
    ((7 : Int) ∈ [(7 : Int)] ∧ ((2 : Int) ≤ 7 ∨ (7 : Int) < -2) ∧
      ∃ e, get_child_titles_from_llm (fun _ => [7]) [⟨1, "T", "x"⟩, ⟨2, "T", "y"⟩] = .error e) ∧
    ((∃ i, (i, (⟨2, "T", "y"⟩ : Cand)) ∈ detect ["T"] [⟨1, "T", "x"⟩, ⟨2, "T", "y"⟩]) ↔
      ((⟨2, "T", "y"⟩ : Cand) ∈ [(⟨1, "T", "x"⟩ : Cand), ⟨2, "T", "y"⟩] ∧ "T" ∈ ["T"])) :=
  ⟨⟨by decide, by decide,
      index_resolution_matches_by_title.1 (fun _ => [7]) [⟨1, "T", "x"⟩, ⟨2, "T", "y"⟩]
        7 (by decide) (by decide)⟩,
    index_resolution_matches_by_title.2 ["T"] [⟨1, "T", "x"⟩, ⟨2, "T", "y"⟩] ⟨2, "T", "y"⟩⟩

theorem leaf_summary_isSome (oP : Except String (List String))
    (oT : Except String String) (n n' : WNode)
    (h : generate_summary_for_leaf_node oP oT n = .ok n') : n'.summary.isSome := by
  unfold generate_summary_for_leaf_node at h
  cases oP with
  | ok pts =>
    simp only at h
    split at h
    · cases oT with
      | ok t => cases h; rfl
      | error e => cases h
    · cases h; rfl
  | error e =>
    simp only at h
    split at h
    · cases oT with
      | ok t => cases h; rfl
      | error e2 => cases h
    · cases h; rfl

theorem section_summary_isSome (oP : Except String (List String))
    (oS : Except String String) (n n' : WNode)
    (h : generate_summary_for_section_node oP oS n = .ok n') : n'.summary.isSome := by
  unfold generate_summary_for_section_node at h
  cases oS with
  | ok sh => cases oP <;> (simp only at h; cases h; rfl)
  | error e => cases oP <;> (simp only at h; cases h)

/-- **C4 counterexample.** In the build_summary.py variant of
`generate_summary_for_node`, a node labelled `figure` whose only child has
no `Summary` annotation still returns `true` (the figure/table early return
skips the children check), contradicting the claimed "returns false iff
some child lacks a Summary". -/
theorem worker_false_iff_counterexample :
    (∃ c ∈ ([⟨"c", "", none⟩] : List ChildView), c.summary = none) ∧
    generate_summary_for_node_bs ⟨.ok [], .ok "t", .ok [], .ok "s"⟩
        ⟨"figure", "F", "", [⟨"c", "", none⟩], none⟩ =
      .ok (true, ⟨"figure", "F", "", [⟨"c", "", none⟩], some ⟨none, "", []⟩⟩) :=
  ⟨⟨⟨"c", "", none⟩, by decide, rfl⟩, rfl⟩

/-- **C4 (amended).** The worker `generate_summary_for_node` of
build_html_tree.py returns `false` iff the node has at least one child
lacking a `Summary` annotation, and whenever it returns `true` the node
carries a `Summary` annotation afterwards.  The build_summary.py variant
satisfies the same equivalence for nodes not labelled `figure`/`table`;
figure/table nodes return `true` unconditionally (intentionally skipped)
while still receiving a `Summary` annotation. -/
theorem worker_ready_protocol :
    (∀ (o : SummaryOracle) (n : WNode) (b : Bool) (n' : WNode),
      generate_summary_for_node o n = .ok (b, n') →
      ((b = false) ↔ ∃ c ∈ n.children, c.summary = none)) ∧
    (∀ (o : SummaryOracle) (n : WNode) (b : Bool) (n' : WNode),
      generate_summary_for_node o n = .ok (b, n') → b = true → n'.summary.isSome) ∧
    (∀ (o : SummaryOracle) (n : WNode) (b : Bool) (n' : WNode),
      ¬(n.label = "figure" ∨ n.label = "table") →
      generate_summary_for_node_bs o n = .ok (b, n') →
      ((b = false) ↔ ∃ c ∈ n.children, c.summary = none)) ∧
    (∀ (o : SummaryOracle) (n : WNode) (b : Bool) (n' : WNode),
      generate_summary_for_node_bs o n = .ok (b, n') → b = true → n'.summary.isSome) := by
  have hiff : ∀ (o : SummaryOracle) (n : WNode) (b : Bool) (n' : WNode),
      generate_summary_for_node o n = .ok (b, n') →
      ((b = false) ↔ ∃ c ∈ n.children, c.summary = none) := by
    intro o n b n' h
    unfold generate_summary_for_node at h
    split at h
    · rename_i hlen
      rw [except_bind_ok] at h
      obtain ⟨n1, _, h2⟩ := h
      cases h2
      have hnil : n.children = [] := List.length_eq_zero.mp hlen
      simp [hnil]
    · split at h
      · split at h
        · rename_i hlen0 hlenpos hany
          cases h
          simp only [List.any_eq_true, decide_eq_true_eq] at hany
          simpa using hany
        · rename_i hlen0 hlenpos hany
          rw [except_bind_ok] at h
          obtain ⟨n1, _, h2⟩ := h
          cases h2
          simp only [List.any_eq_true, decide_eq_true_eq] at hany
          simp only [Bool.true_eq_false, false_iff]
          simpa using hany
      · rename_i hlen0 hlenpos
        omega
  have hsome : ∀ (o : SummaryOracle) (n : WNode) (b : Bool) (n' : WNode),
      generate_summary_for_node o n = .ok (b, n') → b = true → n'.summary.isSome := by
    intro o n b n' h _
    unfold generate_summary_for_node at h
    split at h
    · rw [except_bind_ok] at h
      obtain ⟨n1, h1, h2⟩ := h
      cases h2
      exact leaf_summary_isSome _ _ _ _ h1
    · split at h
      · split at h
        · cases h
          -- b would be false; but we do not need a contradiction: show isSome or derive
          rename_i hlen0 hlenpos hany
          -- in this branch b = false contradicts b = true
          simp_all
        · rw [except_bind_ok] at h
          obtain ⟨n1, h1, h2⟩ := h
          cases h2
          exact section_summary_isSome _ _ _ _ h1
      · cases h
        split
        · rfl
        · rename_i hlen0 hlenpos hsum
          omega
  refine ⟨hiff, hsome, ?_, ?_⟩
  · intro o n b n' hlab h
    unfold generate_summary_for_node_bs at h
    rw [if_neg hlab] at h
    exact hiff o n b n' h
  · intro o n b n' h hb
    unfold generate_summary_for_node_bs at h
    split at h
    · cases h; rfl
    · exact hsome o n b n' h hb

/-- Witness for the amended C4: a section node with one summary-less child
returns `false`; a leaf returns `true` with a `Summary` present. -/
theorem worker_ready_protocol_witness :
    ((false = false) ↔
      ∃ c ∈ (⟨"", "S", "", [⟨"c", "", none⟩], none⟩ : WNode).children,
        c.summary = none) ∧
    (⟨"", "T", "c", [⟨"", "c", some SumAttr.init⟩],
        some ⟨some "", "", []⟩⟩ : WNode).summary.isSome :=
  ⟨worker_ready_protocol.1 ⟨.ok [], .ok "t", .ok [], .ok "s"⟩
      ⟨"", "S", "", [⟨"c", "", none⟩], none⟩ false
      ⟨"", "S", "", [⟨"c", "", none⟩], none⟩ rfl,
    worker_ready_protocol.2.1 ⟨.ok [], .ok "t", .ok [], .ok "s"⟩
      ⟨"", "T", "c", [], none⟩ true
      ⟨"", "T", "c", [⟨"", "c", some ⟨some "", "", []⟩⟩], some ⟨some "", "", []⟩⟩
      rfl rfl⟩

theorem pyIndex_error_eq {α : Type} {xs : List α} {i : Int} {e : String}
    (h : pyIndex xs i = .error e) : e = "IndexError: list index out of range" := by
  unfold pyIndex at h
  split at h
  · cases hg : xs.get? i.toNat with
    | none => rw [hg] at h; cases h; rfl
    | some a => rw [hg] at h; cases h
  · split at h
    · cases hg : xs.get? (i + xs.length).toNat with
      | none => rw [hg] at h; cases h; rfl
      | some a => rw [hg] at h; cases h
    · cases h; rfl

theorem resolveTitles_error_eq {vt : List String} :
    ∀ {is : List Int} {e : String}, resolveTitles vt is = .error e →
      e = "IndexError: list index out of range" := by
  intro is
  induction is with
  | nil => intro e h; cases h
  | cons j js ih =>
    intro e h
    unfold resolveTitles at h
    cases hj : pyIndex vt j with
    | error e2 => rw [hj] at h; cases h; exact pyIndex_error_eq hj
    | ok t =>
      rw [hj] at h
      cases hjs : resolveTitles vt js with
      | error e2 => rw [hjs] at h; cases h; exact ih hjs
      | ok ts => rw [hjs] at h; cases h

theorem get_child_titles_error_eq {o : Oracle} {L : List Cand} {e : String}
    (h : get_child_titles_from_llm o L = .error e) :
    e = "IndexError: list index out of range" :=
  resolveTitles_error_eq h

/-- Every scope sliced out of `L` at a detected index is strictly shorter
than `L`. -/
theorem scope_length_lt (L : List Cand) (i k : Nat) :
    ((L.drop (i + 1)).take k).length ≤ L.length - 1 ∧
      (L.drop (i + 1)).length ≤ L.length - 1 := by
  constructor
  · calc ((L.drop (i + 1)).take k).length ≤ (L.drop (i + 1)).length :=
          by rw [List.length_take, List.length_drop]; omega
      _ ≤ L.length - 1 := by rw [List.length_drop]; omega
  · rw [List.length_drop]; omega

theorem scopeOf_nil (i : Nat) (rest : List (Nat × Cand)) :
    scopeOf [] i rest = [] := by
  cases rest with
  | nil => simp [scopeOf]
  | cons a l => obtain ⟨i2, c2⟩ := a; simp [scopeOf]

theorem scopeOf_length_le (L : List Cand) (i : Nat) (rest : List (Nat × Cand)) :
    (scopeOf L i rest).length ≤ L.length - 1 := by
  cases rest with
  | nil => exact (scope_length_lt L i 0).2
  | cons a l => obtain ⟨i2, c2⟩ := a; exact (scope_length_lt L i (i2 - (i + 1))).1

theorem attachLoop_no_fuel (o : Oracle) (n p : Nat) (L : List Cand)
    (hIH : ∀ (p' : Nat) (L' : List Cand), L'.length < n →
      find_and_attach_children o n p' L' ≠ .error "fuel exhausted")
    (hlen : L.length ≤ n) :
    ∀ det, attachLoop (find_and_attach_children o n) p L det ≠
      .error "fuel exhausted" := by
  intro det
  induction det with
  | nil => intro habs; cases habs
  | cons ic rest ih =>
    obtain ⟨i, c⟩ := ic
    intro habs
    unfold attachLoop at habs
    have hscope : ∀ hsc : ¬ (scopeOf L i rest).isEmpty = true,
        (scopeOf L i rest).length < n := by
      intro hsc
      have hpos : 0 < L.length := by
        rcases Nat.eq_zero_or_pos L.length with h0 | h0
        · exact absurd (by simp [List.length_eq_zero.mp h0, scopeOf_nil]) hsc
        · exact h0
      have := scopeOf_length_le L i rest
      omega
    split at habs
    · -- scrutinee (if ... then ok ... else recur ...) evaluated to error
      rename_i e heq
      cases habs
      split at heq
      · cases heq
      · rename_i hsc
        exact hIH c.id _ (hscope hsc) heq
    · rename_i sub heq
      split at habs
      · rename_i e htail
        cases habs
        exact ih htail
      · rename_i tail htail
        cases habs

theorem find_and_attach_children_no_fuel_error :
    ∀ (fuel : Nat) (o : Oracle) (p : Nat) (L : List Cand), L.length < fuel →
      find_and_attach_children o fuel p L ≠ .error "fuel exhausted" := by
  intro fuel
  induction fuel with
  | zero => intro o p L h; exact absurd h (Nat.not_lt_zero _)
  | succ n ih =>
    intro o p L hlen habs
    unfold find_and_attach_children at habs
    by_cases hL : L.isEmpty
    · rw [if_pos hL] at habs; cases habs
    · rw [if_neg hL] at habs
      have hL1 : 1 ≤ L.length := by
        cases L with
        | nil => exact absurd rfl hL
        | cons a l => simp
      split at habs
      · rename_i e hgc
        cases habs
        exact absurd (get_child_titles_error_eq hgc) (by decide)
      · rename_i titles hgc
        split at habs
        · cases habs
        · split at habs
          · injection habs with habs2
            exact absurd habs2 (by decide)
          · rename_i i1 c1 dtl hdet
            split at habs
            · rename_i e hloop
              cases habs
              exact attachLoop_no_fuel o n p L (fun p' L' h => ih o p' L' h)
                (by omega) _ hloop
            · rename_i loop hloop
              split at habs
              · injection habs with habs2
                exact absurd habs2 (by decide)
              · rename_i ik ck hlast
                split at habs
                · rename_i e heq
                  cases habs
                  split at heq
                  · cases heq
                  · rename_i hrem
                    refine ih o ck.id (L.drop (ik + 1)) ?_ heq
                    have := (scope_length_lt L ik 0).2
                    omega
                · rename_i step4 heq
                  cases habs

theorem detect_all {titles : List String} {L : List Cand}
    (hcov : ∀ c ∈ L, c.title ∈ titles) : detect titles L = L.enum := by
  unfold detect
  rw [List.filter_eq_self]
  intro x hx
  obtain ⟨i, c⟩ := x
  have hc : c ∈ L := List.get?_mem (by
    have := List.mk_mem_enum_iff_getElem?.mp hx
    simpa [List.get?_eq_getElem?] using this)
  simpa using hcov c hc

theorem attachLoop_enumFrom (recur : Nat → List Cand → Except String Run) (p : Nat) :
    ∀ (S : List Cand) (j : Nat) (L : List Cand), L.length = j + S.length →
      attachLoop recur p L (S.enumFrom j) =
        .ok ⟨S.map (fun c => Op.mk c.id p), [], S.map (fun c => PTree.node c [])⟩ := by
  intro S
  induction S with
  | nil => intro j L _; rfl
  | cons c S' ih =>
    intro j L hlen
    rw [show (c :: S').enumFrom j = (j, c) :: S'.enumFrom (j + 1) from rfl]
    unfold attachLoop
    cases S' with
    | nil =>
      have hdrop : L.drop (j + 1) = [] := List.drop_eq_nil_of_le (by
        simp only [List.length_cons, List.length_nil] at hlen
        omega)
      simp [scopeOf, hdrop, attachLoop]
    | cons c2 S'' =>
      have ih2 := ih (j + 1) L (by
        simp only [List.length_cons] at hlen ⊢
        omega)
      rw [show (c2 :: S'').enumFrom (j + 1) = (j + 1, c2) :: S''.enumFrom (j + 2) from rfl] at ih2 ⊢
      rw [show scopeOf L j ((j + 1, c2) :: S''.enumFrom (j + 2)) =
        (L.drop (j + 1)).take ((j + 1) - (j + 1)) from rfl]
      rw [Nat.sub_self, List.take_zero]
      rw [ih2]
      rfl

theorem enumFrom_getLast?_idx :
    ∀ (S : List Cand) (j : Nat), S ≠ [] →
      ∃ ck, (S.enumFrom j).getLast? = some (j + S.length - 1, ck) := by
  intro S
  induction S with
  | nil => intro j h; exact absurd rfl h
  | cons c S' ih =>
    intro j _
    cases S' with
    | nil => exact ⟨c, by simp [List.enumFrom]⟩
    | cons c2 S'' =>
      obtain ⟨ck, hck⟩ := ih (j + 1) (by simp)
      refine ⟨ck, ?_⟩
      rw [show (c :: c2 :: S'').enumFrom j =
        (j, c) :: (j + 1, c2) :: S''.enumFrom (j + 2) from rfl]
      rw [List.getLast?_cons_cons]
      rw [show ((j + 1, c2) :: S''.enumFrom (j + 2)) = (c2 :: S'').enumFrom (j + 1) from rfl]
      rw [hck]
      congr 2
      simp only [List.length_cons]
      omega

/-- If the oracle's resolved titles cover every candidate (as happens when
it returns the full index set), every candidate is detected as top-level:
all scopes are empty, no recursion happens, and the call completes normally
with every candidate attached directly to the parent. -/
theorem full_cover_attaches_all (o : Oracle) (fuel p : Nat) (L : List Cand)
    (titles : List String) (hL : L ≠ [])
    (hgc : get_child_titles_from_llm o L = .ok titles) (ht : titles ≠ [])
    (hcov : ∀ c ∈ L, c.title ∈ titles) :
    find_and_attach_children o (fuel + 1) p L =
      .ok ⟨L.map (fun c => Op.mk c.id p), [L], L.map (fun c => PTree.node c [])⟩ := by
  unfold find_and_attach_children
  rw [if_neg (by simpa using hL)]
  split
  · rename_i e heq
    rw [hgc] at heq; cases heq
  · rename_i titles' heq
    rw [hgc] at heq
    cases heq
    rw [if_neg (by simpa using ht)]
    rw [detect_all hcov]
    cases L with
    | nil => exact absurd rfl hL
    | cons c L' =>
      rw [show (c :: L').enum = (0, c) :: L'.enumFrom 1 from rfl]
      have hloop := attachLoop_enumFrom (find_and_attach_children o fuel) p
        (c :: L') 0 (c :: L') (by simp)
      rw [show ((c :: L').enumFrom 0) = (0, c) :: L'.enumFrom 1 from rfl] at hloop
      rw [hloop]
      obtain ⟨ck, hlast⟩ := enumFrom_getLast?_idx (c :: L') 0 (by simp)
      rw [show ((c :: L').enumFrom 0) = (0, c) :: L'.enumFrom 1 from rfl] at hlast
      have harith : 0 + (c :: L').length - 1 = L'.length := by simp
      rw [harith] at hlast
      rw [hlast]
      simp [List.drop_succ_cons, List.drop_length]

/-- **C3 counterexample.** An oracle that returns the full index set
`[0, 1]` for the two-candidate list: the reconstruction completes silently
(every candidate attached directly to the parent, one oracle query, no
recursion) instead of raising a self-referential-scope error. -/
theorem full_index_set_completes_counterexample :
    find_and_attach_children (fun _ => [0, 1]) 3 0 [⟨1, "a", ""⟩, ⟨2, "b", ""⟩] =
      .ok ⟨[⟨1, 0⟩, ⟨2, 0⟩], [[⟨1, "a", ""⟩, ⟨2, "b", ""⟩]],
           [.node ⟨1, "a", ""⟩ [], .node ⟨2, "b", ""⟩ []]⟩ :=
  rfl

theorem drop_eq_cons_of_get? {α : Type} :
    ∀ {i : Nat} {l : List α} {x : α}, l.get? i = some x →
      l.drop i = x :: l.drop (i + 1) := by
  intro i
  induction i with
  | zero =>
    intro l x h
    cases l with
    | nil => cases h
    | cons a t => cases h; rfl
  | succ j ih =>
    intro l x h
    cases l with
    | nil => cases h
    | cons a t =>
      have h2 : t.get? j = some x := h
      rw [show (a :: t).drop (j + 1) = t.drop j from rfl,
        show (a :: t).drop (j + 1 + 1) = t.drop (j + 1) from rfl]
      exact ih h2

theorem scope_decomp {α : Type} (L : List α) {i i2 : Nat} (h : i < i2) :
    L.drop (i + 1) = (L.drop (i + 1)).take (i2 - (i + 1)) ++ L.drop i2 := by
  conv_lhs => rw [← List.take_append_drop (i2 - (i + 1)) (L.drop (i + 1))]
  congr 1
  rw [List.drop_drop]
  congr 1
  omega

/-- Every candidate in the region handled by the step-3 loop receives at
least one `change_parent` operation. -/
theorem attachLoop_cover (o : Oracle) (fuel p : Nat) (L : List Cand)
    (HC : ∀ (p' : Nat) (L' : List Cand) (r' : Run),
      find_and_attach_children o fuel p' L' = .ok r' →
      ∀ c ∈ L', ∃ op ∈ r'.ops, op.child = c.id) :
    ∀ (rest : List (Nat × Cand)) (i : Nat) (c : Cand) (run : Run),
      attachLoop (find_and_attach_children o fuel) p L ((i, c) :: rest) = .ok run →
      (∀ x ∈ (i, c) :: rest, L.get? x.1 = some x.2) →
      ((i, c) :: rest).Chain' (fun a b => a.1 < b.1) →
      ∀ x ∈ L.drop i, ∃ op ∈ run.ops, op.child = x.id := by
  intro rest
  induction rest with
  | nil =>
    intro i c run hrun hget hchain x hx
    unfold attachLoop at hrun
    split at hrun
    · cases hrun
    · rename_i sub hsub
      split at hrun
      · cases hrun
      · rename_i tail htail
        cases hrun
        cases htail
        rw [drop_eq_cons_of_get? (hget (i, c) (by simp))] at hx
        rcases List.mem_cons.mp hx with rfl | hx2
        · exact ⟨Op.mk x.id p, by simp, rfl⟩
        · -- x lies in the trailing scope L.drop (i+1)
          split at hsub
          · rename_i hemp
            rw [show scopeOf L i [] = L.drop (i + 1) from rfl] at hemp
            rw [List.isEmpty_iff] at hemp
            rw [hemp] at hx2
            cases hx2
          · rename_i hemp
            obtain ⟨op, hopmem, hopx⟩ := HC c.id _ sub hsub x
              (by rw [show scopeOf L i [] = L.drop (i + 1) from rfl]; exact hx2)
            exact ⟨op, by simp [hopmem], hopx⟩
  | cons ic2 rest' ih =>
    obtain ⟨i2, c2⟩ := ic2
    intro i c run hrun hget hchain x hx
    unfold attachLoop at hrun
    split at hrun
    · cases hrun
    · rename_i sub hsub
      split at hrun
      · cases hrun
      · rename_i tail htail
        cases hrun
        rw [drop_eq_cons_of_get? (hget (i, c) (by simp))] at hx
        have hii2 : i < i2 := (List.chain'_cons.mp hchain).1
        rcases List.mem_cons.mp hx with rfl | hx2
        · exact ⟨Op.mk x.id p, by simp, rfl⟩
        · rw [scope_decomp L hii2] at hx2
          rcases List.mem_append.mp hx2 with hsc | hrest
          · -- x in the scope of (i, c)
            split at hsub
            · rename_i hemp
              rw [show scopeOf L i ((i2, c2) :: rest') =
                (L.drop (i + 1)).take (i2 - (i + 1)) from rfl] at hemp
              rw [List.isEmpty_iff] at hemp
              rw [hemp] at hsc
              cases hsc
            · rename_i hemp
              obtain ⟨op, hopmem, hopx⟩ := HC c.id _ sub hsub x
                (by rw [show scopeOf L i ((i2, c2) :: rest') =
                  (L.drop (i + 1)).take (i2 - (i + 1)) from rfl]; exact hsc)
              exact ⟨op, by simp [hopmem], hopx⟩
          · obtain ⟨op, hopmem, hopx⟩ := ih i2 c2 tail htail
              (fun y hy => hget y (List.mem_cons_of_mem _ hy))
              (List.chain'_cons.mp hchain).2 x hrest
            exact ⟨op, by simp [hopmem], hopx⟩

/-- Every candidate of a successful reconstruction receives at least one
`change_parent` operation (no candidate is dropped). -/
theorem find_and_attach_children_cover :
    ∀ (fuel : Nat) (o : Oracle) (p : Nat) (L : List Cand) (r : Run),
      find_and_attach_children o fuel p L = .ok r →
      ∀ c ∈ L, ∃ op ∈ r.ops, op.child = c.id := by
  intro fuel
  induction fuel with
  | zero => intro o p L r h; cases h
  | succ n ih =>
    intro o p L r hrun c hc
    unfold find_and_attach_children at hrun
    by_cases hL : L.isEmpty
    · rw [List.isEmpty_iff] at hL
      rw [hL] at hc; cases hc
    · rw [if_neg hL] at hrun
      split at hrun
      · cases hrun
      · rename_i titles hgc
        split at hrun
        · cases hrun
          exact ⟨Op.mk c.id p, List.mem_map_of_mem _ hc, rfl⟩
        · split at hrun
          · cases hrun
          · rename_i i1 c1 dtl hdet
            split at hrun
            · cases hrun
            · rename_i loop hloop
              split at hrun
              · cases hrun
              · rename_i ik ck hlast
                split at hrun
                · cases hrun
                · rename_i step4 hstep4
                  cases hrun
                  rw [← List.take_append_drop i1 L] at hc
                  rcases List.mem_append.mp hc with hlead | hdrop
                  · exact ⟨Op.mk c.id p, by
                      simp only [List.mem_append]
                      exact Or.inl (List.mem_map_of_mem _ hlead), rfl⟩
                  · have hget : ∀ x ∈ (i1, c1) :: dtl, L.get? x.1 = some x.2 := by
                      intro x hx
                      exact detect_mem_get? (hdet ▸ hx)
                    have hchain : ((i1, c1) :: dtl).Chain'
                        (fun a b => a.1 < b.1) := by
                      rw [← hdet]
                      exact (detect_pairwise titles L).chain'
                    obtain ⟨op, hopmem, hopx⟩ := attachLoop_cover o n p L
                      (fun p' L' r' h => ih o p' L' r' h)
                      dtl i1 c1 loop (hdet ▸ hloop) hget hchain c hdrop
                    exact ⟨op, by
                      simp only [List.mem_append]
                      exact Or.inr (Or.inl hopmem), hopx⟩

/-- A successful reconstruction of a non-empty list queries the oracle on
that list first. -/
theorem find_and_attach_children_queries_head {o : Oracle} {fuel p : Nat}
    {L : List Cand} {r : Run} (hrun : find_and_attach_children o fuel p L = .ok r)
    (hL : L ≠ []) : ∃ tl, r.queries = L :: tl := by
  cases fuel with
  | zero => cases hrun
  | succ n =>
    unfold find_and_attach_children at hrun
    rw [if_neg (by simpa using hL)] at hrun
    split at hrun
    · cases hrun
    · split at hrun
      · cases hrun; exact ⟨[], rfl⟩
      · split at hrun
        · cases hrun
        · split at hrun
          · cases hrun
          · split at hrun
            · cases hrun
            · split at hrun
              · cases hrun
              · cases hrun; exact ⟨_, rfl⟩

/-- The last iteration of the step-3 loop: when the last detected index has
a non-empty trailing scope, the loop ends with the attach of the last
detected child followed by the operations of the recursive call on the
trailing scope, and its queries contain that call's queries. -/
theorem attachLoop_last (recur : Nat → List Cand → Except String Run)
    (p : Nat) (L : List Cand) :
    ∀ (det : List (Nat × Cand)) (run : Run) (ik : Nat) (ck : Cand),
      attachLoop recur p L det = .ok run →
      det.getLast? = some (ik, ck) →
      ¬ (L.drop (ik + 1)).isEmpty = true →
      ∃ (r4 : Run) (A : List Op) (Aq : List (List Cand)),
        recur ck.id (L.drop (ik + 1)) = .ok r4 ∧
        run.ops = A ++ (Op.mk ck.id p :: r4.ops) ∧
        run.queries = Aq ++ r4.queries := by
  intro det
  induction det with
  | nil => intro run ik ck _ hlast _; cases hlast
  | cons ic rest ih =>
    obtain ⟨i, c⟩ := ic
    intro run ik ck hrun hlast hne
    unfold attachLoop at hrun
    split at hrun
    · cases hrun
    · rename_i sub hsub
      split at hrun
      · cases hrun
      · rename_i tail htail
        cases hrun
        cases rest with
        | nil =>
          obtain ⟨hik, hck⟩ : i = ik ∧ c = ck := by simpa using hlast
          subst hik
          subst hck
          rw [show scopeOf L i [] = L.drop (i + 1) from rfl] at hsub
          rw [if_neg hne] at hsub
          cases htail
          refine ⟨sub, [], [], hsub, ?_, ?_⟩
          · simp
          · simp
        | cons ic2 rest' =>
          have hlast2 : (ic2 :: rest').getLast? = some (ik, ck) := by
            rw [← hlast]
            exact List.getLast?_cons_cons.symm
          obtain ⟨r4, A', Aq', hr4, hops, hqs⟩ :=
            ih tail ik ck htail hlast2 hne
          refine ⟨r4, Op.mk c.id p :: (sub.ops ++ A'), sub.queries ++ Aq',
            hr4, ?_, ?_⟩
          · simp [hops]
          · simp [hqs]

/-! ## Forest lemmas (C2) -/

theorem flattenF_append : ∀ (f1 f2 : List PTree),
    flattenF (f1 ++ f2) = flattenF f1 ++ flattenF f2 := by
  intro f1
  induction f1 with
  | nil => intro f2; rfl
  | cons t ts ih =>
    intro f2
    rw [show flattenF ((t :: ts) ++ f2) = flattenT t ++ flattenF (ts ++ f2) from rfl]
    rw [show flattenF (t :: ts) = flattenT t ++ flattenF ts from rfl]
    rw [ih, List.append_assoc]

theorem chAssignF_append (q : Nat) : ∀ (f1 f2 : List PTree),
    chAssignF q (f1 ++ f2) = chAssignF q f1 ++ chAssignF q f2 := by
  intro f1
  induction f1 with
  | nil => intro f2; rfl
  | cons t ts ih =>
    intro f2
    rw [show chAssignF q ((t :: ts) ++ f2) = chAssignT q t ++ chAssignF q (ts ++ f2)
      from rfl]
    rw [show chAssignF q (t :: ts) = chAssignT q t ++ chAssignF q ts from rfl]
    rw [ih, List.append_assoc]

theorem rootIds_append (f1 f2 : List PTree) :
    rootIds (f1 ++ f2) = rootIds f1 ++ rootIds f2 := List.map_append _ f1 f2

theorem rootIds_leafMap (L : List Cand) :
    rootIds (L.map (fun c => PTree.node c [])) = idsOf L := by
  induction L with
  | nil => rfl
  | cons c cs ih => simp [rootIds, idsOf, rootId]

theorem chAssignF_leafMap (q : Nat) (L : List Cand) :
    chAssignF q (L.map (fun c => PTree.node c [])) = [] := by
  induction L with
  | nil => rfl
  | cons c cs ih =>
    rw [List.map_cons,
      show chAssignF q (PTree.node c [] :: cs.map (fun c => PTree.node c [])) =
        chAssignT q (PTree.node c []) ++
          chAssignF q (cs.map (fun c => PTree.node c [])) from rfl,
      ih]
    rw [show chAssignT q (PTree.node c []) =
      (if c.id = q then rootIds [] else []) ++ chAssignF q [] from rfl]
    simp [rootIds, chAssignF]

theorem flattenF_leafMap (L : List Cand) :
    flattenF (L.map (fun c => PTree.node c [])) = idsOf L := by
  induction L with
  | nil => rfl
  | cons c cs ih =>
    rw [List.map_cons,
      show flattenF (PTree.node c [] :: cs.map (fun c => PTree.node c [])) =
        flattenT (PTree.node c []) ++
          flattenF (cs.map (fun c => PTree.node c [])) from rfl,
      ih]
    rfl

theorem parF_leafMap (pp : Nat) : ∀ (L : List Cand) (x : Nat), x ∈ idsOf L →
    parF pp x (L.map (fun c => PTree.node c [])) = some pp := by
  intro L
  induction L with
  | nil => intro x hx; cases hx
  | cons c cs ih =>
    intro x hx
    rw [List.map_cons,
      show parF pp x (PTree.node c [] :: cs.map (fun c => PTree.node c [])) =
        (parT pp x (PTree.node c [])).orElse
          (fun _ => parF pp x (cs.map (fun c => PTree.node c []))) from rfl]
    rw [show parT pp x (PTree.node c []) =
      (if c.id = x then some pp else parF c.id x []) from rfl]
    by_cases hcx : c.id = x
    · simp [hcx]
    · rcases List.mem_cons.mp hx with h | h
      · exact absurd h.symm hcx
      · simp only [if_neg hcx]
        rw [show parF c.id x ([] : List PTree) = none from rfl]
        simpa using ih x h

mutual
theorem chAssignT_eq_nil_of_not_mem (q : Nat) (t : PTree)
    (h : q ∉ flattenT t) : chAssignT q t = [] := by
  cases t with
  | node c ch =>
    rw [show flattenT (.node c ch) = c.id :: flattenF ch from rfl] at h
    rw [show chAssignT q (.node c ch) =
      (if c.id = q then rootIds ch else []) ++ chAssignF q ch from rfl]
    rw [if_neg (fun he => h (by rw [← he]; exact List.mem_cons_self _ _)),
      chAssignF_eq_nil_of_not_mem q ch (fun hm => h (List.mem_cons_of_mem _ hm))]
    rfl
theorem chAssignF_eq_nil_of_not_mem (q : Nat) (f : List PTree)
    (h : q ∉ flattenF f) : chAssignF q f = [] := by
  cases f with
  | nil => rfl
  | cons t ts =>
    rw [show flattenF (t :: ts) = flattenT t ++ flattenF ts from rfl] at h
    rw [show chAssignF q (t :: ts) = chAssignT q t ++ chAssignF q ts from rfl]
    rw [chAssignT_eq_nil_of_not_mem q t (fun hm => h (List.mem_append.mpr (Or.inl hm))),
      chAssignF_eq_nil_of_not_mem q ts (fun hm => h (List.mem_append.mpr (Or.inr hm)))]
    rfl
end

mutual
theorem parT_eq_none_of_not_mem (pp x : Nat) (t : PTree)
    (h : x ∉ flattenT t) : parT pp x t = none := by
  cases t with
  | node c ch =>
    rw [show flattenT (.node c ch) = c.id :: flattenF ch from rfl] at h
    rw [show parT pp x (.node c ch) =
      (if c.id = x then some pp else parF c.id x ch) from rfl]
    rw [if_neg (fun he => h (by rw [← he]; exact List.mem_cons_self _ _))]
    exact parF_eq_none_of_not_mem c.id x ch (fun hm => h (List.mem_cons_of_mem _ hm))
theorem parF_eq_none_of_not_mem (pp x : Nat) (f : List PTree)
    (h : x ∉ flattenF f) : parF pp x f = none := by
  cases f with
  | nil => rfl
  | cons t ts =>
    rw [show flattenF (t :: ts) = flattenT t ++ flattenF ts from rfl] at h
    rw [show parF pp x (t :: ts) =
      (parT pp x t).orElse (fun _ => parF pp x ts) from rfl]
    rw [parT_eq_none_of_not_mem pp x t (fun hm => h (List.mem_append.mpr (Or.inl hm))),
      parF_eq_none_of_not_mem pp x ts (fun hm => h (List.mem_append.mpr (Or.inr hm)))]
    rfl
end

mutual
theorem parT_isSome_of_mem (pp x : Nat) (t : PTree)
    (h : x ∈ flattenT t) : (parT pp x t).isSome := by
  cases t with
  | node c ch =>
    rw [show parT pp x (.node c ch) =
      (if c.id = x then some pp else parF c.id x ch) from rfl]
    by_cases hcx : c.id = x
    · simp [hcx]
    · rw [if_neg hcx]
      rw [show flattenT (.node c ch) = c.id :: flattenF ch from rfl] at h
      rcases List.mem_cons.mp h with he | hm
      · exact absurd he.symm hcx
      · exact parF_isSome_of_mem c.id x ch hm
theorem parF_isSome_of_mem (pp x : Nat) (f : List PTree)
    (h : x ∈ flattenF f) : (parF pp x f).isSome := by
  cases f with
  | nil => cases h
  | cons t ts =>
    rw [show flattenF (t :: ts) = flattenT t ++ flattenF ts from rfl] at h
    rw [show parF pp x (t :: ts) =
      (parT pp x t).orElse (fun _ => parF pp x ts) from rfl]
    rcases List.mem_append.mp h with hm | hm
    · have hs := parT_isSome_of_mem pp x t hm
      cases hpt : parT pp x t with
      | none => rw [hpt] at hs; cases hs
      | some r => rfl
    · cases hpt : parT pp x t with
      | none => simpa using parF_isSome_of_mem pp x ts hm
      | some r => rfl
end

theorem rootId_mem_flattenT (t : PTree) : rootId t ∈ flattenT t := by
  cases t with
  | node c ch =>
    rw [show flattenT (.node c ch) = c.id :: flattenF ch from rfl]
    exact List.mem_cons_self _ _

theorem rootIds_subset_flatten {x : Nat} : ∀ {f : List PTree},
    x ∈ rootIds f → x ∈ flattenF f := by
  intro f
  induction f with
  | nil => intro h; cases h
  | cons t ts ih =>
    intro h
    rw [show rootIds (t :: ts) = rootId t :: rootIds ts from rfl] at h
    rw [show flattenF (t :: ts) = flattenT t ++ flattenF ts from rfl]
    rcases List.mem_cons.mp h with he | h2
    · exact List.mem_append_left _ (he ▸ rootId_mem_flattenT t)
    · exact List.mem_append_right _ (ih h2)

mutual
theorem chAssignT_subset {q x : Nat} : ∀ (t : PTree),
    x ∈ chAssignT q t → x ∈ flattenT t
  | .node c ch => by
    intro h
    rw [show chAssignT q (.node c ch) =
      (if c.id = q then rootIds ch else []) ++ chAssignF q ch from rfl] at h
    rw [show flattenT (.node c ch) = c.id :: flattenF ch from rfl]
    rcases List.mem_append.mp h with h1 | h2
    · apply List.mem_cons_of_mem
      split at h1
      · exact rootIds_subset_flatten h1
      · cases h1
    · exact List.mem_cons_of_mem _ (chAssignF_subset ch h2)
theorem chAssignF_subset {q x : Nat} : ∀ (f : List PTree),
    x ∈ chAssignF q f → x ∈ flattenF f
  | [] => by intro h; cases h
  | t :: ts => by
    intro h
    rw [show chAssignF q (t :: ts) = chAssignT q t ++ chAssignF q ts from rfl] at h
    rw [show flattenF (t :: ts) = flattenT t ++ flattenF ts from rfl]
    rcases List.mem_append.mp h with h1 | h2
    · exact List.mem_append_left _ (chAssignT_subset t h1)
    · exact List.mem_append_right _ (chAssignF_subset ts h2)
end

/-! ## Filter algebra for region removal (C2) -/

theorem filter_not_mem_nil (l : List Nat) :
    l.filter (fun y => decide (y ∉ ([] : List Nat))) = l := by
  induction l with
  | nil => rfl
  | cons b t ih => simp [List.filter_cons, ih]

theorem filter_merge_ne (l : List Nat) (a : Nat) (S : List Nat) :
    (l.filter (fun y => decide (y ≠ a))).filter (fun y => decide (y ∉ S)) =
      l.filter (fun y => decide (y ∉ a :: S)) := by
  rw [List.filter_filter]
  apply List.filter_congr
  intro y _
  by_cases h1 : y = a
  · simp [h1]
  · by_cases h2 : y ∈ S
    · simp [h1, h2]
    · simp [h1, h2]

theorem filter_merge_append (l : List Nat) (A B : List Nat) :
    (l.filter (fun y => decide (y ∉ A))).filter (fun y => decide (y ∉ B)) =
      l.filter (fun y => decide (y ∉ A ++ B)) := by
  rw [List.filter_filter]
  apply List.filter_congr
  intro y _
  by_cases h1 : y ∈ A
  · simp [h1]
  · by_cases h2 : y ∈ B
    · simp [h1, h2]
    · simp [h1, h2]

theorem filter_not_mem_of_disjoint {l S : List Nat} (h : ∀ y ∈ l, y ∉ S) :
    l.filter (fun y => decide (y ∉ S)) = l := by
  induction l with
  | nil => rfl
  | cons b t ih =>
    have hb := h b (List.mem_cons_self _ _)
    have ht := ih (fun y hy => h y (List.mem_cons_of_mem _ hy))
    rw [List.filter_cons, if_pos (by simp [hb]), ht]

theorem filter_not_mem_of_subset {l S : List Nat} (h : ∀ y ∈ l, y ∈ S) :
    l.filter (fun y => decide (y ∉ S)) = [] := by
  induction l with
  | nil => rfl
  | cons b t ih =>
    have hb := h b (List.mem_cons_self _ _)
    have ht := ih (fun y hy => h y (List.mem_cons_of_mem _ hy))
    rw [List.filter_cons, if_neg (by simp [hb]), ht]

theorem filter_subset_noop {l A B : List Nat} (h : ∀ y ∈ B, y ∈ A) :
    (l.filter (fun y => decide (y ∉ A))).filter (fun y => decide (y ∉ B)) =
      l.filter (fun y => decide (y ∉ A)) := by
  apply filter_not_mem_of_disjoint
  intro y hy hyB
  have hnotA : y ∉ A := by simpa using List.of_mem_filter hy
  exact hnotA (h y hyB)

/-! ## Replaying operation lists (C2) -/

theorem applyOps_nil (st : St) : applyOps st [] = st := rfl

theorem applyOps_cons (st : St) (op : Op) (ops : List Op) :
    applyOps st (op :: ops) = applyOps (change_parent st op.child op.parent) ops :=
  rfl

theorem applyOps_append (st : St) (l1 l2 : List Op) :
    applyOps st (l1 ++ l2) = applyOps (applyOps st l1) l2 := by
  unfold applyOps
  exact List.foldl_append _ _ _ _

/-- The forest built by the step-3 loop ends with the subtree of the last
detected child, whose child forest comes from the recursion on the trailing
scope (the same expression step 4 re-evaluates). -/
theorem attachLoop_last_forest (recur : Nat → List Cand → Except String Run)
    (p : Nat) (L : List Cand) :
    ∀ (det : List (Nat × Cand)) (run : Run) (ik : Nat) (ck : Cand),
      attachLoop recur p L det = .ok run →
      det.getLast? = some (ik, ck) →
      ∃ (sub : Run) (front : List PTree),
        (if (L.drop (ik + 1)).isEmpty then Except.ok (⟨[], [], []⟩ : Run)
         else recur ck.id (L.drop (ik + 1))) = .ok sub ∧
        run.forest = front ++ [PTree.node ck sub.forest] := by
  intro det
  induction det with
  | nil => intro run ik ck _ hlast; cases hlast
  | cons ic rest ih =>
    obtain ⟨i, c⟩ := ic
    intro run ik ck hrun hlast
    unfold attachLoop at hrun
    split at hrun
    · cases hrun
    · rename_i sub hsub
      split at hrun
      · cases hrun
      · rename_i tail htail
        cases hrun
        cases rest with
        | nil =>
          obtain ⟨hik, hck⟩ : i = ik ∧ c = ck := by simpa using hlast
          subst hik
          subst hck
          cases htail
          rw [show scopeOf L i [] = L.drop (i + 1) from rfl] at hsub
          exact ⟨sub, [], hsub, by simp⟩
        | cons ic2 rest2 =>
          have hlast2 : (ic2 :: rest2).getLast? = some (ik, ck) := by
            rw [← hlast]
            exact List.getLast?_cons_cons.symm
          obtain ⟨s4, front, hr4, hforest⟩ := ih tail ik ck htail hlast2
          exact ⟨s4, PTree.node c sub.forest :: front, hr4, by simp [hforest]⟩

theorem parF_append (pp x : Nat) : ∀ (f1 f2 : List PTree),
    parF pp x (f1 ++ f2) = (parF pp x f1).orElse (fun _ => parF pp x f2) := by
  intro f1
  induction f1 with
  | nil => intro f2; rfl
  | cons t ts ih =>
    intro f2
    rw [show parF pp x ((t :: ts) ++ f2) =
      (parT pp x t).orElse (fun _ => parF pp x (ts ++ f2)) from rfl]
    rw [show parF pp x (t :: ts) =
      (parT pp x t).orElse (fun _ => parF pp x ts) from rfl]
    cases parT pp x t with
    | none => simp [ih]
    | some r => rfl

/-! ## The change_parent state machine (C2) -/

theorem change_parent_children_eq (st : St) (c p q : Nat) :
    (change_parent st c p).children q =
      (if q = p then (if st.parent c = some q then (st.children q).erase c
          else st.children q) ++ [c]
       else (if st.parent c = some q then (st.children q).erase c
          else st.children q)) := rfl

theorem change_parent_parent_eq (st : St) (c p x : Nat) :
    (change_parent st c p).parent x = (if x = c then some p else st.parent x) := rfl

theorem filter_ne_of_not_mem {l : List Nat} {x : Nat} (h : x ∉ l) :
    l.filter (fun y => decide (y ≠ x)) = l := by
  induction l with
  | nil => rfl
  | cons b t ih =>
    have hbx : b ≠ x := by
      intro he
      subst he
      exact h (List.mem_cons_self _ _)
    rw [List.filter_cons, if_pos (by simp [hbx]),
      ih (fun hm => h (List.mem_cons_of_mem _ hm))]

theorem erase_eq_filter_of_count_le_one : ∀ {l : List Nat} {x : Nat},
    l.count x ≤ 1 → l.erase x = l.filter (fun y => decide (y ≠ x)) := by
  intro l
  induction l with
  | nil => intro x _; rfl
  | cons b t ih =>
    intro x hc
    by_cases hbx : b = x
    · subst hbx
      rw [List.erase_cons_head]
      rw [List.count_cons_self] at hc
      have hnm : b ∉ t := by
        rw [← List.count_eq_zero]
        omega
      rw [List.filter_cons, if_neg (by simp), filter_ne_of_not_mem hnm]
    · have hbx2 : ¬(b == x) = true := by simp [hbx]
      rw [List.erase_cons_tail hbx2, List.filter_cons, if_pos (by simp [hbx])]
      have hc2 : t.count x ≤ 1 := by
        rw [List.count_cons_of_ne (fun he => hbx he.symm)] at hc
        exact hc
      rw [ih hc2]

theorem okAt_change_parent (st : St) (c p x : Nat) (h : OkAt st x) :
    OkAt (change_parent st c p) x := by
  obtain ⟨h1, h2⟩ := h
  by_cases hxc : x = c
  · subst hxc
    have hrem : ∀ q, x ∉ (if st.parent x = some q then (st.children q).erase x
        else st.children q) := by
      intro q
      by_cases hpq : st.parent x = some q
      · rw [if_pos hpq]
        intro hm
        have hpos := List.count_pos_iff.mpr hm
        have hera := List.count_erase_self x (st.children q)
        have hle := h2 q
        omega
      · rw [if_neg hpq]
        intro hm
        exact hpq (h1 q hm)
    refine ⟨?_, ?_⟩
    · intro q hq
      rw [change_parent_children_eq] at hq
      rw [change_parent_parent_eq, if_pos rfl]
      by_cases hqp : q = p
      · rw [hqp]
      · rw [if_neg hqp] at hq
        exact absurd hq (hrem q)
    · intro q
      rw [change_parent_children_eq]
      by_cases hqp : q = p
      · rw [if_pos hqp, List.count_append]
        have hz := List.count_eq_zero.mpr (hrem q)
        rw [hz]
        simp
      · rw [if_neg hqp]
        have hz := List.count_eq_zero.mpr (hrem q)
        omega
  · have hremmem : ∀ q, x ∈ (if st.parent c = some q then (st.children q).erase c
        else st.children q) → x ∈ st.children q := by
      intro q hm
      by_cases hpq : st.parent c = some q
      · rw [if_pos hpq] at hm
        exact (List.mem_erase_of_ne hxc).mp hm
      · rw [if_neg hpq] at hm
        exact hm
    have hremcount : ∀ q, (if st.parent c = some q then (st.children q).erase c
        else st.children q).count x = (st.children q).count x := by
      intro q
      by_cases hpq : st.parent c = some q
      · rw [if_pos hpq]
        exact List.count_erase_of_ne hxc _
      · rw [if_neg hpq]
    refine ⟨?_, ?_⟩
    · intro q hq
      rw [change_parent_children_eq] at hq
      rw [change_parent_parent_eq, if_neg hxc]
      apply h1 q
      by_cases hqp : q = p
      · rw [if_pos hqp] at hq
        rcases List.mem_append.mp hq with hm | hm
        · exact hremmem q hm
        · exact absurd (List.mem_singleton.mp hm) hxc
      · rw [if_neg hqp] at hq
        exact hremmem q hq
    · intro q
      rw [change_parent_children_eq]
      by_cases hqp : q = p
      · rw [if_pos hqp, List.count_append, hremcount q]
        have hone : List.count x [c] = 0 := by simp [hxc]
        rw [hone]
        simpa using h2 q
      · rw [if_neg hqp, hremcount q]
        exact h2 q

theorem coherent_change_parent {st : St} {S : List Nat} (h : Coherent st S)
    (c p : Nat) : Coherent (change_parent st c p) S :=
  fun x hx => okAt_change_parent st c p x (h x hx)

theorem coherent_applyOps {S : List Nat} :
    ∀ (ops : List Op) (st : St), Coherent st S → Coherent (applyOps st ops) S := by
  intro ops
  induction ops with
  | nil => intro st h; exact h
  | cons op rest ih =>
    intro st h
    rw [applyOps_cons]
    exact ih _ (coherent_change_parent h op.child op.parent)

theorem coherent_mono {st : St} {S S2 : List Nat} (hsub : ∀ x ∈ S2, x ∈ S)
    (h : Coherent st S) : Coherent st S2 := fun x hx => h x (hsub x hx)

theorem coherent_initSt (S : List Nat) : Coherent initSt S := by
  intro x _
  refine ⟨?_, ?_⟩
  · intro q hq
    cases hq
  · intro q
    simp [initSt]

/-- The effect of a single `change_parent` on child lists, under the state
invariant at the moved node: the node is removed from every list and
appended to the new parent's. -/
theorem change_parent_children {st : St} {x : Nat} (h : OkAt st x) (p q : Nat) :
    (change_parent st x p).children q =
      (st.children q).filter (fun y => decide (y ≠ x)) ++
        (if q = p then [x] else []) := by
  obtain ⟨h1, h2⟩ := h
  have hrem : (if st.parent x = some q then (st.children q).erase x
      else st.children q) = (st.children q).filter (fun y => decide (y ≠ x)) := by
    by_cases hpq : st.parent x = some q
    · rw [if_pos hpq]
      exact erase_eq_filter_of_count_le_one (h2 q)
    · rw [if_neg hpq]
      exact (filter_ne_of_not_mem (fun hm => hpq (h1 q hm))).symm
  rw [change_parent_children_eq]
  by_cases hqp : q = p
  · rw [if_pos hqp, if_pos hqp, hrem]
  · rw [if_neg hqp, if_neg hqp, hrem, List.append_nil]

/-- Replaying a block of direct attachments (`node.change_parent(parent)`
for each listed id, in order): the ids are removed from every child list
and appended, in order, to the parent's. -/
theorem attach_run (p : Nat) : ∀ (xs : List Nat), xs.Nodup →
    ∀ st : St, Coherent st xs → ∀ q,
    (applyOps st (xs.map (fun z => Op.mk z p))).children q =
      (st.children q).filter (fun y => decide (y ∉ xs)) ++
        (if q = p then xs else []) := by
  intro xs
  induction xs with
  | nil =>
    intro _ st _ q
    rw [List.map_nil, applyOps_nil, filter_not_mem_nil]
    simp
  | cons x xs ih =>
    intro hnd st hcoh q
    have hok : OkAt st x := hcoh x (List.mem_cons_self _ _)
    have hnd2 : xs.Nodup := (List.nodup_cons.mp hnd).2
    have hxnot : x ∉ xs := (List.nodup_cons.mp hnd).1
    have hcoh2 : Coherent (change_parent st x p) xs :=
      coherent_change_parent
        (coherent_mono (fun y hy => List.mem_cons_of_mem _ hy) hcoh) x p
    show (applyOps (change_parent st x p)
      (xs.map (fun z => Op.mk z p))).children q = _
    rw [ih hnd2 (change_parent st x p) hcoh2 q,
      change_parent_children hok p q, List.filter_append, filter_merge_ne]
    by_cases hqp : q = p
    · simp [hqp, List.filter_cons, hxnot]
    · simp [hqp, List.filter_cons]

/-! ## Semantics of a reconstruction run (C2) -/

theorem sem_empty (p : Nat) : SemAt p [] ⟨[], [], []⟩ := by
  refine ⟨rfl, fun st _ q => ?_⟩
  show st.children q =
    (st.children q).filter (fun y => decide (y ∉ ([] : List Nat))) ++
      ((if q = p then rootIds [] else []) ++ chAssignF q [])
  rw [filter_not_mem_nil, show chAssignF q [] = [] from rfl,
    show rootIds ([] : List PTree) = [] from rfl]
  simp

theorem idsOf_append (A B : List Cand) : idsOf (A ++ B) = idsOf A ++ idsOf B :=
  List.map_append _ A B

/-- Semantics of the step-3 loop: starting from a detected pair `(i, c)`,
the loop realises, over the region `L.drop i`, exactly the child
assignments of the forest it builds, and that forest flattens to the
region. -/
theorem loop_sem (recur : Nat → List Cand → Except String Run) (p : Nat)
    (L : List Cand)
    (HREC : ∀ (p2 : Nat) (L2 : List Cand) (r2 : Run),
      recur p2 L2 = .ok r2 → (idsOf L2).Nodup → p2 ∉ idsOf L2 →
      SemAt p2 (idsOf L2) r2) :
    ∀ (rest : List (Nat × Cand)) (i : Nat) (c : Cand) (run : Run),
      attachLoop recur p L ((i, c) :: rest) = .ok run →
      (∀ x ∈ (i, c) :: rest, L.get? x.1 = some x.2) →
      ((i, c) :: rest).Chain' (fun a b => a.1 < b.1) →
      (idsOf (L.drop i)).Nodup →
      p ∉ idsOf (L.drop i) →
      SemAt p (idsOf (L.drop i)) run := by
  intro rest
  induction rest with
  | nil =>
    intro i c run hrun hget hchain hnd hp
    unfold attachLoop at hrun
    split at hrun
    · cases hrun
    · rename_i sub hsub
      split at hrun
      · cases hrun
      · rename_i tail htail
        cases hrun
        cases htail
        rw [show scopeOf L i [] = L.drop (i + 1) from rfl] at hsub
        have hdropi : L.drop i = c :: L.drop (i + 1) :=
          drop_eq_cons_of_get? (hget (i, c) (List.mem_cons_self _ _))
        have hreg : idsOf (L.drop i) = c.id :: idsOf (L.drop (i + 1)) := by
          rw [hdropi]; rfl
        rw [hreg] at hnd hp
        have hcid : c.id ∉ idsOf (L.drop (i + 1)) := (List.nodup_cons.mp hnd).1
        have hndsc : (idsOf (L.drop (i + 1))).Nodup := (List.nodup_cons.mp hnd).2
        have hsemsub : SemAt c.id (idsOf (L.drop (i + 1))) sub := by
          split at hsub
          · rename_i hemp
            cases hsub
            rw [List.isEmpty_iff] at hemp
            rw [hemp]
            exact sem_empty c.id
          · exact HREC c.id _ sub hsub hndsc hcid
        constructor
        · show flattenF [PTree.node c sub.forest] = idsOf (L.drop i)
          rw [show flattenF [PTree.node c sub.forest] =
            (c.id :: flattenF sub.forest) ++ [] from rfl, List.append_nil,
            hsemsub.1, hreg]
        · intro st hcoh q
          rw [hreg]
          have hokc : OkAt st c.id := hcoh c.id (by rw [hreg]; exact List.mem_cons_self _ _)
          have hcoh1 : Coherent (change_parent st c.id p) (idsOf (L.drop (i + 1))) :=
            coherent_change_parent
              (coherent_mono (fun y hy => by rw [hreg]; exact List.mem_cons_of_mem _ hy)
                hcoh) c.id p
          show (applyOps st (Op.mk c.id p :: (sub.ops ++ []))).children q = _
          rw [List.append_nil, applyOps_cons,
            show applyOps (change_parent st (Op.mk c.id p).child
              (Op.mk c.id p).parent) sub.ops =
              applyOps (change_parent st c.id p) sub.ops from rfl,
            hsemsub.2 (change_parent st c.id p) hcoh1 q,
            change_parent_children hokc p q,
            List.filter_append, filter_merge_ne,
            show rootIds [PTree.node c sub.forest] = [c.id] from rfl,
            show chAssignF q [PTree.node c sub.forest] =
              ((if c.id = q then rootIds sub.forest else []) ++
                chAssignF q sub.forest) ++ [] from rfl,
            List.append_nil]
          have hcp : ¬ p = c.id := by
            intro he
            rw [he] at hp
            exact hp (List.mem_cons_self _ _)
          have hpc : ¬ c.id = p := fun he => hcp he.symm
          by_cases hqp : q = p
          · simp [hqp, hpc, hcp, List.filter_cons, hcid]
          · by_cases hqc : q = c.id
            · simp [hqp, hqc, hpc, hcid]
            · have hcq : ¬ c.id = q := fun he => hqc he.symm
              simp [hqp, hqc, hcq]
  | cons ic2 rest2 ih =>
    obtain ⟨i2, c2⟩ := ic2
    intro i c run hrun hget hchain hnd hp
    unfold attachLoop at hrun
    split at hrun
    · cases hrun
    · rename_i sub hsub
      split at hrun
      · cases hrun
      · rename_i tail htail
        cases hrun
        have hii2 : i < i2 := (List.chain'_cons.mp hchain).1
        have hchain2 := (List.chain'_cons.mp hchain).2
        have hget2 : ∀ x ∈ (i2, c2) :: rest2, L.get? x.1 = some x.2 :=
          fun x hx => hget x (List.mem_cons_of_mem _ hx)
        have hdropi : L.drop i = c :: L.drop (i + 1) :=
          drop_eq_cons_of_get? (hget (i, c) (List.mem_cons_self _ _))
        have hscope : L.drop (i + 1) =
            scopeOf L i ((i2, c2) :: rest2) ++ L.drop i2 := by
          rw [show scopeOf L i ((i2, c2) :: rest2) =
            (L.drop (i + 1)).take (i2 - (i + 1)) from rfl]
          exact scope_decomp L hii2
        have hreg : idsOf (L.drop i) =
            c.id :: (idsOf (scopeOf L i ((i2, c2) :: rest2)) ++
              idsOf (L.drop i2)) := by
          rw [hdropi, hscope]
          simp [idsOf]
        rw [hreg] at hnd hp
        have hcid : c.id ∉ idsOf (scopeOf L i ((i2, c2) :: rest2)) ++
            idsOf (L.drop i2) := (List.nodup_cons.mp hnd).1
        have hcidSc : c.id ∉ idsOf (scopeOf L i ((i2, c2) :: rest2)) :=
          fun h => hcid (List.mem_append_left _ h)
        have hcidTl : c.id ∉ idsOf (L.drop i2) :=
          fun h => hcid (List.mem_append_right _ h)
        have hnd2 := (List.nodup_cons.mp hnd).2
        have hndSc : (idsOf (scopeOf L i ((i2, c2) :: rest2))).Nodup :=
          (List.nodup_append.mp hnd2).1
        have hndTl : (idsOf (L.drop i2)).Nodup := (List.nodup_append.mp hnd2).2.1
        have hdisj : (idsOf (scopeOf L i ((i2, c2) :: rest2))).Disjoint
            (idsOf (L.drop i2)) := (List.nodup_append.mp hnd2).2.2
        have hpSc : p ∉ idsOf (scopeOf L i ((i2, c2) :: rest2)) :=
          fun h => hp (List.mem_cons_of_mem _ (List.mem_append_left _ h))
        have hpTl : p ∉ idsOf (L.drop i2) :=
          fun h => hp (List.mem_cons_of_mem _ (List.mem_append_right _ h))
        have hsemsub : SemAt c.id (idsOf (scopeOf L i ((i2, c2) :: rest2))) sub := by
          split at hsub
          · rename_i hemp
            cases hsub
            rw [List.isEmpty_iff] at hemp
            rw [hemp]
            exact sem_empty c.id
          · exact HREC c.id _ sub hsub hndSc hcidSc
        have hsemtail : SemAt p (idsOf (L.drop i2)) tail :=
          ih i2 c2 tail htail hget2 hchain2 hndTl hpTl
        have hsubflat := hsemsub.1
        have hrootsSub_fil : (rootIds sub.forest).filter
            (fun y => decide (y ∉ idsOf (L.drop i2))) = rootIds sub.forest :=
          filter_not_mem_of_disjoint (fun y hy =>
            hdisj (hsubflat ▸ rootIds_subset_flatten hy))
        have hchSub_fil : ∀ q, (chAssignF q sub.forest).filter
            (fun y => decide (y ∉ idsOf (L.drop i2))) = chAssignF q sub.forest :=
          fun q => filter_not_mem_of_disjoint (fun y hy =>
            hdisj (hsubflat ▸ chAssignF_subset _ hy))
        constructor
        · show flattenF (PTree.node c sub.forest :: tail.forest) = idsOf (L.drop i)
          rw [show flattenF (PTree.node c sub.forest :: tail.forest) =
            (c.id :: flattenF sub.forest) ++ flattenF tail.forest from rfl,
            hsemsub.1, hsemtail.1, hreg]
          simp
        · intro st hcoh q
          rw [hreg]
          have hokc : OkAt st c.id := hcoh c.id (by rw [hreg]; exact List.mem_cons_self _ _)
          have hcohSc : Coherent (change_parent st c.id p)
              (idsOf (scopeOf L i ((i2, c2) :: rest2))) :=
            coherent_change_parent
              (coherent_mono (fun y hy => by
                rw [hreg]
                exact List.mem_cons_of_mem _ (List.mem_append_left _ hy)) hcoh) c.id p
          have hcohTl : Coherent (applyOps (change_parent st c.id p) sub.ops)
              (idsOf (L.drop i2)) :=
            coherent_applyOps sub.ops _
              (coherent_change_parent
                (coherent_mono (fun y hy => by
                  rw [hreg]
                  exact List.mem_cons_of_mem _ (List.mem_append_right _ hy)) hcoh)
                c.id p)
          show (applyOps st (Op.mk c.id p :: (sub.ops ++ tail.ops))).children q = _
          rw [applyOps_cons,
            show applyOps (change_parent st (Op.mk c.id p).child
              (Op.mk c.id p).parent) (sub.ops ++ tail.ops) =
              applyOps (change_parent st c.id p) (sub.ops ++ tail.ops) from rfl,
            applyOps_append,
            hsemtail.2 (applyOps (change_parent st c.id p) sub.ops) hcohTl q,
            hsemsub.2 (change_parent st c.id p) hcohSc q,
            change_parent_children hokc p q]
          simp only [List.filter_append]
          rw [filter_merge_ne, filter_merge_append, List.cons_append,
            show rootIds (PTree.node c sub.forest :: tail.forest) =
              c.id :: rootIds tail.forest from rfl,
            show chAssignF q (PTree.node c sub.forest :: tail.forest) =
              ((if c.id = q then rootIds sub.forest else []) ++
                chAssignF q sub.forest) ++ chAssignF q tail.forest from rfl,
            hchSub_fil q]
          have hchSubP : chAssignF p sub.forest = [] :=
            chAssignF_eq_nil_of_not_mem p sub.forest (by rw [hsubflat]; exact hpSc)
          have hcp : ¬ p = c.id := by
            intro he
            rw [he] at hp
            exact hp (List.mem_cons_self _ _)
          have hpc : ¬ c.id = p := fun he => hcp he.symm
          have hrootsTl : ∀ a ∈ rootIds sub.forest, a ∉ idsOf (L.drop i2) :=
            fun a ha hT => hdisj (hsubflat ▸ rootIds_subset_flatten ha) hT
          by_cases hqp : q = p
          · simp [hqp, hpc, hcp, List.filter_cons, hcidSc, hcidTl, hchSubP]
          · by_cases hqc : q = c.id
            · simp [hqp, hqc, hpc, hrootsSub_fil, hcidSc, hcidTl]
              exact hrootsTl
            · have hcq : ¬ c.id = q := fun he => hqc he.symm
              simp [hqp, hqc, hcq, hrootsSub_fil, hrootsTl]

/-- The semantics of a whole successful reconstruction call on a
duplicate-free candidate list: its ghost forest flattens to the candidate
ids in their original order, and replaying its operations realises exactly
the forest's child assignments, with the forest's roots appended under the
parent. -/
theorem faac_sem (o : Oracle) : ∀ (fuel p : Nat) (L : List Cand) (r : Run),
    find_and_attach_children o fuel p L = .ok r →
    (idsOf L).Nodup → p ∉ idsOf L → SemAt p (idsOf L) r := by
  intro fuel
  induction fuel with
  | zero => intro p L r hok; cases hok
  | succ fuel ihf =>
    intro p L r hok hnd hp
    unfold find_and_attach_children at hok
    by_cases hL : L.isEmpty
    · rw [if_pos hL] at hok
      cases hok
      rw [List.isEmpty_iff] at hL
      subst hL
      exact sem_empty p
    · rw [if_neg hL] at hok
      split at hok
      · cases hok
      · rename_i titles htit
        split at hok
        · cases hok
          constructor
          · show flattenF (L.map fun c => PTree.node c []) = idsOf L
            exact flattenF_leafMap L
          · intro st hcoh q
            have hlead : L.map (fun c => Op.mk c.id p) =
                (idsOf L).map (fun z => Op.mk z p) := by
              rw [idsOf, List.map_map]
              rfl
            show (applyOps st (L.map fun c => Op.mk c.id p)).children q = _
            rw [hlead, attach_run p (idsOf L) hnd st hcoh q,
              show rootIds (L.map fun c => PTree.node c []) = idsOf L from
                rootIds_leafMap L,
              chAssignF_leafMap q L]
            simp
        · split at hok
          · cases hok
          · rename_i i1 c1 dtl hdet
            split at hok
            · cases hok
            · rename_i loop hloop
              split at hok
              · cases hok
              · rename_i ik ck hlast
                split at hok
                · cases hok
                · rename_i step4 hstep4
                  cases hok
                  rw [hdet] at hloop hlast
                  have hget : ∀ x ∈ (i1, c1) :: dtl, L.get? x.1 = some x.2 :=
                    fun x hx => detect_mem_get? (hdet ▸ hx)
                  have hchain : ((i1, c1) :: dtl).Chain'
                      (fun a b => a.1 < b.1) := by
                    rw [← hdet]
                    exact (detect_pairwise titles L).chain'
                  have hidsplit : idsOf L =
                      idsOf (L.take i1) ++ idsOf (L.drop i1) := by
                    conv_lhs => rw [← List.take_append_drop i1 L]
                    exact idsOf_append _ _
                  have hndL := hnd
                  rw [hidsplit] at hnd hp
                  have hndLead : (idsOf (L.take i1)).Nodup :=
                    (List.nodup_append.mp hnd).1
                  have hndReg : (idsOf (L.drop i1)).Nodup :=
                    (List.nodup_append.mp hnd).2.1
                  have hdisjLR : (idsOf (L.take i1)).Disjoint
                      (idsOf (L.drop i1)) := (List.nodup_append.mp hnd).2.2
                  have hpLead : p ∉ idsOf (L.take i1) :=
                    fun h => hp (List.mem_append_left _ h)
                  have hpReg : p ∉ idsOf (L.drop i1) :=
                    fun h => hp (List.mem_append_right _ h)
                  have hsemloop : SemAt p (idsOf (L.drop i1)) loop :=
                    loop_sem (find_and_attach_children o fuel) p L
                      (fun p2 L2 r2 h => ihf p2 L2 r2 h)
                      dtl i1 c1 loop hloop hget hchain hndReg hpReg
                  obtain ⟨sub, front, hsubeq, hforest⟩ :=
                    attachLoop_last_forest (find_and_attach_children o fuel)
                      p L ((i1, c1) :: dtl) loop ik ck hloop hlast
                  have hsub4 : sub = step4 := by
                    rw [hsubeq] at hstep4
                    injection hstep4
                  subst hsub4
                  have hckmem : (ik, ck) ∈ (i1, c1) :: dtl :=
                    List.mem_of_mem_getLast? (Option.mem_def.mpr hlast)
                  have hgetik : L.get? ik = some ck := hget (ik, ck) hckmem
                  have hdropik : L.drop ik = ck :: L.drop (ik + 1) :=
                    drop_eq_cons_of_get? hgetik
                  have hsubl : (idsOf (L.drop ik)).Sublist (idsOf L) :=
                    (List.drop_sublist ik L).map _
                  have hidsik : idsOf (L.drop ik) =
                      ck.id :: idsOf (L.drop (ik + 1)) := by
                    rw [hdropik]; rfl
                  have hnddropik : (idsOf (L.drop ik)).Nodup := hndL.sublist hsubl
                  rw [hidsik] at hnddropik
                  have hckRem : ck.id ∉ idsOf (L.drop (ik + 1)) :=
                    (List.nodup_cons.mp hnddropik).1
                  have hndRem : (idsOf (L.drop (ik + 1))).Nodup :=
                    (List.nodup_cons.mp hnddropik).2
                  have hckInL : ck.id ∈ idsOf L :=
                    hsubl.subset (by rw [hidsik]; exact List.mem_cons_self _ _)
                  have hsemsub : SemAt ck.id (idsOf (L.drop (ik + 1))) sub := by
                    split at hsubeq
                    · rename_i hemp
                      cases hsubeq
                      rw [List.isEmpty_iff] at hemp
                      rw [hemp]
                      exact sem_empty ck.id
                    · exact ihf ck.id _ sub hsubeq hndRem hckRem
                  have hflatS4 : flattenF sub.forest = idsOf (L.drop (ik + 1)) :=
                    hsemsub.1
                  have hregdec : idsOf (L.drop i1) =
                      flattenF front ++ (ck.id :: idsOf (L.drop (ik + 1))) := by
                    rw [← hsemloop.1, hforest, flattenF_append,
                      show flattenF [PTree.node ck sub.forest] =
                        (ck.id :: flattenF sub.forest) ++ [] from rfl,
                      List.append_nil, hflatS4]
                  have hfrontRem : ∀ y ∈ flattenF front,
                      y ∉ idsOf (L.drop (ik + 1)) := by
                    have hd := hndReg
                    rw [hregdec] at hd
                    exact fun y hy hr =>
                      (List.nodup_append.mp hd).2.2 hy (List.mem_cons_of_mem _ hr)
                  have hremReg : ∀ y ∈ idsOf (L.drop (ik + 1)),
                      y ∈ idsOf (L.drop i1) := fun y hy => by
                    rw [hregdec]
                    exact List.mem_append_right _ (List.mem_cons_of_mem _ hy)
                  have hpRem : p ∉ idsOf (L.drop (ik + 1)) :=
                    fun h => hpReg (hremReg p h)
                  have hleadReg : ∀ y ∈ idsOf (L.take i1),
                      y ∉ idsOf (L.drop i1) := fun y hy hr => hdisjLR hy hr
                  have hleadRem : ∀ y ∈ idsOf (L.take i1),
                      y ∉ idsOf (L.drop (ik + 1)) :=
                    fun y hy hr => hdisjLR hy (hremReg y hr)
                  have hrootsFrontRem : ∀ y ∈ rootIds front,
                      y ∉ idsOf (L.drop (ik + 1)) :=
                    fun y hy => hfrontRem y (rootIds_subset_flatten hy)
                  have hchFrontRem : ∀ q2 : Nat, ∀ y ∈ chAssignF q2 front,
                      y ∉ idsOf (L.drop (ik + 1)) :=
                    fun q2 y hy => hfrontRem y (chAssignF_subset _ hy)
                  have hrootsSubIn : ∀ y ∈ rootIds sub.forest,
                      y ∈ idsOf (L.drop (ik + 1)) :=
                    fun y hy => hflatS4 ▸ rootIds_subset_flatten hy
                  have hchSubIn : ∀ q2 : Nat, ∀ y ∈ chAssignF q2 sub.forest,
                      y ∈ idsOf (L.drop (ik + 1)) :=
                    fun q2 y hy => hflatS4 ▸ chAssignF_subset _ hy
                  have hstfil : ∀ l : List Nat,
                      ((l.filter (fun y => decide (y ∉ idsOf (L.take i1)))).filter
                        (fun y => decide (y ∉ idsOf (L.drop i1)))).filter
                        (fun y => decide (y ∉ idsOf (L.drop (ik + 1)))) =
                      l.filter (fun y => decide (y ∉ idsOf (L.take i1) ++
                        idsOf (L.drop i1))) := by
                    intro l
                    rw [show (l.filter (fun y => decide (y ∉ idsOf (L.take i1)))).filter
                        (fun y => decide (y ∉ idsOf (L.drop i1))) =
                        l.filter (fun y => decide (y ∉ idsOf (L.take i1) ++
                          idsOf (L.drop i1))) from filter_merge_append l _ _]
                    exact filter_subset_noop
                      (fun y hy => List.mem_append_right _ (hremReg y hy))
                  have e1 : List.filter (fun a =>
                      !decide (a ∈ idsOf (L.drop (ik + 1))) &&
                        !decide (a ∈ idsOf (L.drop i1))) (idsOf (L.take i1)) =
                      idsOf (L.take i1) :=
                    List.filter_eq_self.mpr (fun y hy => by
                      simp [hleadRem y hy, hleadReg y hy])
                  have e2 : List.filter (fun y =>
                      !decide (y ∈ idsOf (L.drop (ik + 1)))) (rootIds front) =
                      rootIds front :=
                    List.filter_eq_self.mpr (fun y hy => by
                      simp [hrootsFrontRem y hy])
                  have e3 : ∀ q2 : Nat, List.filter (fun y =>
                      !decide (y ∈ idsOf (L.drop (ik + 1)))) (chAssignF q2 front) =
                      chAssignF q2 front :=
                    fun q2 => List.filter_eq_self.mpr (fun y hy => by
                      simp [hchFrontRem q2 y hy])
                  have e4 : ∀ q2 : Nat, List.filter (fun y =>
                      !decide (y ∈ idsOf (L.drop (ik + 1))))
                      (chAssignF q2 sub.forest) = [] :=
                    fun q2 => List.filter_eq_nil_iff.mpr (fun y hy => by
                      simp [hchSubIn q2 y hy])
                  have e5 : List.filter (fun y =>
                      !decide (y ∈ idsOf (L.drop (ik + 1)))) (rootIds sub.forest) =
                      [] :=
                    List.filter_eq_nil_iff.mpr (fun y hy => by
                      simp [hrootsSubIn y hy])
                  have hpck : ¬ p = ck.id := by
                    intro he
                    rw [hidsplit] at hckInL
                    rw [he] at hp
                    exact hp hckInL
                  have hckp : ¬ ck.id = p := fun he => hpck he.symm
                  have hleadmap : (L.take i1).map (fun c => Op.mk c.id p) =
                      (idsOf (L.take i1)).map (fun z => Op.mk z p) := by
                    rw [idsOf, List.map_map]
                    rfl
                  constructor
                  · show flattenF ((L.take i1).map (fun c => PTree.node c []) ++
                      loop.forest) = idsOf L
                    rw [flattenF_append, flattenF_leafMap, hsemloop.1, hidsplit]
                  · intro st hcoh q
                    have hcohLead : Coherent st (idsOf (L.take i1)) :=
                      coherent_mono (fun y hy => by
                        rw [hidsplit]; exact List.mem_append_left _ hy) hcoh
                    have hcohReg : Coherent (applyOps st
                        ((idsOf (L.take i1)).map (fun z => Op.mk z p)))
                        (idsOf (L.drop i1)) :=
                      coherent_applyOps _ st
                        (coherent_mono (fun y hy => by
                          rw [hidsplit]; exact List.mem_append_right _ hy) hcoh)
                    have hcohRem : Coherent (applyOps (applyOps st
                        ((idsOf (L.take i1)).map (fun z => Op.mk z p))) loop.ops)
                        (idsOf (L.drop (ik + 1))) :=
                      coherent_applyOps _ _
                        (coherent_applyOps _ st
                          (coherent_mono (fun y hy => by
                            rw [hidsplit]
                            exact List.mem_append_right _ (hremReg y hy)) hcoh))
                    show (applyOps st ((L.take i1).map (fun c => Op.mk c.id p) ++
                      (loop.ops ++ sub.ops))).children q = _
                    rw [hidsplit, hleadmap, applyOps_append, applyOps_append,
                      hsemsub.2 _ hcohRem q,
                      hsemloop.2 _ hcohReg q,
                      attach_run p (idsOf (L.take i1)) hndLead st hcohLead q]
                    simp only [List.filter_append]
                    rw [hstfil (st.children q),
                      show rootIds ((L.take i1).map (fun c => PTree.node c []) ++
                        loop.forest) = idsOf (L.take i1) ++ rootIds loop.forest by
                        rw [rootIds_append, rootIds_leafMap],
                      show chAssignF q ((L.take i1).map (fun c => PTree.node c []) ++
                        loop.forest) = chAssignF q loop.forest by
                        rw [chAssignF_append, chAssignF_leafMap]; rfl,
                      hforest, rootIds_append, chAssignF_append,
                      show rootIds [PTree.node ck sub.forest] = [ck.id] from rfl,
                      show chAssignF q [PTree.node ck sub.forest] =
                        ((if ck.id = q then rootIds sub.forest else []) ++
                          chAssignF q sub.forest) ++ [] from rfl,
                      List.append_nil]
                    by_cases hqp : q = p
                    · simp [hqp, hpck, hckp, List.filter_cons, hckRem,
                        List.append_assoc]
                      rw [e1, e2, e3 p, e4 p]
                      simp
                    · by_cases hqc : q = ck.id
                      · simp [hqp, hqc, hckp, List.append_assoc]
                        rw [e3 ck.id, e4 ck.id, e5]
                        simp
                      · have hcq : ¬ ck.id = q := fun he => hqc he.symm
                        simp [hqp, hqc, hcq, List.append_assoc]
                        rw [e3 q, e4 q]
                        simp

/-! ## Reading the realised tree back (C2) -/

mutual
theorem dfs_realizes_T (st : St) : ∀ (t : PTree) (fuel : Nat),
    heightT t ≤ fuel → (flattenT t).Nodup →
    (∀ q, q ∈ flattenT t → st.children q = chAssignT q t) →
    dfs st fuel (rootId t) = flattenT t
  | .node c ch => by
    intro fuel hh hnd hch
    rw [show heightT (.node c ch) = heightF ch + 1 from rfl] at hh
    cases fuel with
    | zero => omega
    | succ m =>
      rw [show flattenT (.node c ch) = c.id :: flattenF ch from rfl] at hnd hch ⊢
      have hcid : c.id ∉ flattenF ch := (List.nodup_cons.mp hnd).1
      have hndf : (flattenF ch).Nodup := (List.nodup_cons.mp hnd).2
      have hc0 : st.children c.id = rootIds ch := by
        rw [hch c.id (List.mem_cons_self _ _),
          show chAssignT c.id (.node c ch) =
            (if c.id = c.id then rootIds ch else []) ++ chAssignF c.id ch from rfl,
          if_pos rfl, chAssignF_eq_nil_of_not_mem c.id ch hcid, List.append_nil]
      show dfs st (m + 1) c.id = c.id :: flattenF ch
      rw [show dfs st (m + 1) c.id =
        c.id :: ((st.children c.id).map (dfs st m)).flatten from rfl, hc0]
      congr 1
      apply dfs_realizes_F st ch m (by omega) hndf
      intro q hq
      rw [hch q (List.mem_cons_of_mem _ hq),
        show chAssignT q (.node c ch) =
          (if c.id = q then rootIds ch else []) ++ chAssignF q ch from rfl,
        if_neg (fun he => hcid (by rw [he]; exact hq)), List.nil_append]
theorem dfs_realizes_F (st : St) : ∀ (f : List PTree) (fuel : Nat),
    heightF f ≤ fuel → (flattenF f).Nodup →
    (∀ q, q ∈ flattenF f → st.children q = chAssignF q f) →
    ((rootIds f).map (dfs st fuel)).flatten = flattenF f
  | [] => by intro fuel _ _ _; rfl
  | t :: ts => by
    intro fuel hh hnd hch
    rw [show heightF (t :: ts) = max (heightT t) (heightF ts) from rfl] at hh
    rw [show flattenF (t :: ts) = flattenT t ++ flattenF ts from rfl] at hnd hch ⊢
    have hnd1 := (List.nodup_append.mp hnd).1
    have hnd2 := (List.nodup_append.mp hnd).2.1
    have hdisj := (List.nodup_append.mp hnd).2.2
    have h1 : heightT t ≤ fuel := le_trans (Nat.le_max_left _ _) hh
    have h2 : heightF ts ≤ fuel := le_trans (Nat.le_max_right _ _) hh
    rw [show rootIds (t :: ts) = rootId t :: rootIds ts from rfl, List.map_cons,
      show ((dfs st fuel (rootId t)) :: (rootIds ts).map (dfs st fuel)).flatten =
        dfs st fuel (rootId t) ++ ((rootIds ts).map (dfs st fuel)).flatten
      from rfl]
    rw [dfs_realizes_T st t fuel h1 hnd1 (fun q hq => by
        rw [hch q (List.mem_append_left _ hq),
          show chAssignF q (t :: ts) = chAssignT q t ++ chAssignF q ts from rfl,
          chAssignF_eq_nil_of_not_mem q ts (fun hm => hdisj hq hm),
          List.append_nil]),
      dfs_realizes_F st ts fuel h2 hnd2 (fun q hq => by
        rw [hch q (List.mem_append_right _ hq),
          show chAssignF q (t :: ts) = chAssignT q t ++ chAssignF q ts from rfl,
          chAssignT_eq_nil_of_not_mem q t (fun hm => hdisj hm hq),
          List.nil_append])]
end

mutual
theorem heightT_le_flatten_length : ∀ t : PTree,
    heightT t ≤ (flattenT t).length
  | .node c ch => by
    rw [show heightT (.node c ch) = heightF ch + 1 from rfl,
      show flattenT (.node c ch) = c.id :: flattenF ch from rfl,
      List.length_cons]
    have := heightF_le_flatten_length ch
    omega
theorem heightF_le_flatten_length : ∀ f : List PTree,
    heightF f ≤ (flattenF f).length
  | [] => by
    rw [show heightF [] = 0 from rfl]
    exact Nat.zero_le _
  | t :: ts => by
    rw [show heightF (t :: ts) = max (heightT t) (heightF ts) from rfl,
      show flattenF (t :: ts) = flattenT t ++ flattenF ts from rfl,
      List.length_append]
    have h1 := heightT_le_flatten_length t
    have h2 := heightF_le_flatten_length ts
    exact Nat.max_le.mpr ⟨by omega, by omega⟩
end

/-! ## Serializer lemmas (C8) -/

theorem mem_allIdsF_of_mem : ∀ (f : List RNode) (c : RNode), c ∈ f →
    ∀ x ∈ allIdsT c, x ∈ allIdsF f := by
  intro f
  induction f with
  | nil => intro c hc; cases hc
  | cons d ds ih =>
    intro c hc x hx
    rw [show allIdsF (d :: ds) = allIdsT d ++ allIdsF ds from rfl]
    rcases List.mem_cons.mp hc with rfl | hc2
    · exact List.mem_append.mpr (Or.inl hx)
    · exact List.mem_append.mpr (Or.inr (ih c hc2 x hx))

theorem nid_mem_allIdsT (t : RNode) : t.nid ∈ allIdsT t := by
  cases t with
  | mk i ti ch => simp [allIdsT, RNode.nid]

mutual
theorem entriesT_keys_perm (par : Option String) (t : RNode) :
    List.Perm ((entriesT par t).map Prod.fst) ((allIdsT t).map toString) := by
  cases t with
  | mk i ti ch =>
    rw [show entriesT par (.mk i ti ch) =
      entriesF (some (toString i)) ch ++
        [(toString i, to_json_without_children par (.mk i ti ch))] from rfl]
    rw [show allIdsT (.mk i ti ch) = i :: allIdsF ch from rfl]
    rw [List.map_append, List.map_cons]
    refine (List.perm_append_singleton _ _).trans ?_
    exact (entriesF_keys_perm (some (toString i)) ch).cons _
theorem entriesF_keys_perm (par : Option String) (f : List RNode) :
    List.Perm ((entriesF par f).map Prod.fst) ((allIdsF f).map toString) := by
  cases f with
  | nil => rfl
  | cons c cs =>
    rw [show entriesF par (c :: cs) = entriesT par c ++ entriesF par cs from rfl]
    rw [show allIdsF (c :: cs) = allIdsT c ++ allIdsF cs from rfl]
    rw [List.map_append, List.map_append]
    exact (entriesT_keys_perm par c).append (entriesF_keys_perm par cs)
end

mutual
theorem entriesT_id_eq_key (par : Option String) (t : RNode) :
    ∀ kv ∈ entriesT par t, kv.2.id = kv.1 := by
  cases t with
  | mk i ti ch =>
    intro kv hkv
    rw [show entriesT par (.mk i ti ch) =
      entriesF (some (toString i)) ch ++
        [(toString i, to_json_without_children par (.mk i ti ch))] from rfl] at hkv
    rcases List.mem_append.mp hkv with h | h
    · exact entriesF_id_eq_key _ ch kv h
    · rcases List.mem_singleton.mp h with rfl
      rfl
theorem entriesF_id_eq_key (par : Option String) (f : List RNode) :
    ∀ kv ∈ entriesF par f, kv.2.id = kv.1 := by
  cases f with
  | nil => intro kv hkv; cases hkv
  | cons c cs =>
    intro kv hkv
    rcases List.mem_append.mp hkv with h | h
    · exact entriesT_id_eq_key par c kv h
    · exact entriesF_id_eq_key par cs kv h
end

mutual
theorem entriesT_children_sub (par : Option String) (t : RNode) :
    ∀ kv ∈ entriesT par t, ∀ cid ∈ kv.2.children,
      cid ∈ (allIdsT t).map toString := by
  cases t with
  | mk i ti ch =>
    intro kv hkv cid hcid
    rw [show allIdsT (.mk i ti ch) = i :: allIdsF ch from rfl]
    rw [show entriesT par (.mk i ti ch) =
      entriesF (some (toString i)) ch ++
        [(toString i, to_json_without_children par (.mk i ti ch))] from rfl] at hkv
    rcases List.mem_append.mp hkv with h | h
    · have := entriesF_children_sub _ ch kv h cid hcid
      rw [List.map_cons]
      exact List.mem_cons_of_mem _ this
    · rcases List.mem_singleton.mp h with rfl
      simp only [to_json_without_children, RNode.ch, List.mem_map] at hcid
      obtain ⟨c, hcmem, rfl⟩ := hcid
      rw [List.map_cons]
      refine List.mem_cons_of_mem _ (List.mem_map_of_mem _ ?_)
      exact mem_allIdsF_of_mem ch c hcmem c.nid (nid_mem_allIdsT c)
theorem entriesF_children_sub (par : Option String) (f : List RNode) :
    ∀ kv ∈ entriesF par f, ∀ cid ∈ kv.2.children,
      cid ∈ (allIdsF f).map toString := by
  cases f with
  | nil => intro kv hkv; cases hkv
  | cons c cs =>
    intro kv hkv cid hcid
    rw [show allIdsF (c :: cs) = allIdsT c ++ allIdsF cs from rfl, List.map_append]
    rcases List.mem_append.mp hkv with h | h
    · exact List.mem_append.mpr (Or.inl (entriesT_children_sub par c kv h cid hcid))
    · exact List.mem_append.mpr (Or.inr (entriesF_children_sub par cs kv h cid hcid))
end

mutual
theorem entriesT_parent_shape (par : Option String) (t : RNode) :
    ∀ kv ∈ entriesT par t, kv.2.parent = par ∨
      ∃ r, kv.2.parent = some r ∧ r ∈ (allIdsT t).map toString := by
  cases t with
  | mk i ti ch =>
    intro kv hkv
    rw [show entriesT par (.mk i ti ch) =
      entriesF (some (toString i)) ch ++
        [(toString i, to_json_without_children par (.mk i ti ch))] from rfl] at hkv
    rcases List.mem_append.mp hkv with h | h
    · rcases entriesF_parent_shape (some (toString i)) ch kv h with h2 | ⟨r, hr, hrmem⟩
      · refine Or.inr ⟨toString i, h2, ?_⟩
        rw [show allIdsT (.mk i ti ch) = i :: allIdsF ch from rfl, List.map_cons]
        exact List.mem_cons_self _ _
      · refine Or.inr ⟨r, hr, ?_⟩
        rw [show allIdsT (.mk i ti ch) = i :: allIdsF ch from rfl, List.map_cons]
        exact List.mem_cons_of_mem _ hrmem
    · rcases List.mem_singleton.mp h with rfl
      exact Or.inl rfl
theorem entriesF_parent_shape (par : Option String) (f : List RNode) :
    ∀ kv ∈ entriesF par f, kv.2.parent = par ∨
      ∃ r, kv.2.parent = some r ∧ r ∈ (allIdsF f).map toString := by
  cases f with
  | nil => intro kv hkv; cases hkv
  | cons c cs =>
    intro kv hkv
    rcases List.mem_append.mp hkv with h | h
    · rcases entriesT_parent_shape par c kv h with h2 | ⟨r, hr, hrmem⟩
      · exact Or.inl h2
      · refine Or.inr ⟨r, hr, ?_⟩
        rw [show allIdsF (c :: cs) = allIdsT c ++ allIdsF cs from rfl, List.map_append]
        exact List.mem_append.mpr (Or.inl hrmem)
    · rcases entriesF_parent_shape par cs kv h with h2 | ⟨r, hr, hrmem⟩
      · exact Or.inl h2
      · refine Or.inr ⟨r, hr, ?_⟩
        rw [show allIdsF (c :: cs) = allIdsT c ++ allIdsF cs from rfl, List.map_append]
        exact List.mem_append.mpr (Or.inr hrmem)
end

mutual
theorem to_json_acc (par : Option String) (t : RNode) :
    ∀ dict : List (String × NodeJson),
      (∀ k ∈ (allIdsT t).map toString, k ∉ dict.map Prod.fst) →
      ((allIdsT t).map toString).Nodup →
      to_json par t dict = dict ++ entriesT par t := by
  cases t with
  | mk i ti ch =>
    intro dict hdisj hnd
    have hkey : toString i ∈ (allIdsT (RNode.mk i ti ch)).map toString := by
      rw [show allIdsT (.mk i ti ch) = i :: allIdsF ch from rfl, List.map_cons]
      exact List.mem_cons_self _ _
    have hguard : (dict.map Prod.fst).contains (toString i) = false := by
      simpa using hdisj _ hkey
    rw [show to_json par (.mk i ti ch) dict =
      if (dict.map Prod.fst).contains (toString i) then dict
      else to_json_list (some (toString i)) ch dict ++
        [(toString i, to_json_without_children par (.mk i ti ch))] from rfl]
    rw [hguard]
    simp only [Bool.false_eq_true, if_false]
    have hch : ∀ k ∈ (allIdsF ch).map toString, k ∉ dict.map Prod.fst := by
      intro k hk
      refine hdisj k ?_
      rw [show allIdsT (.mk i ti ch) = i :: allIdsF ch from rfl, List.map_cons]
      exact List.mem_cons_of_mem _ hk
    have hndch : ((allIdsF ch).map toString).Nodup := by
      rw [show allIdsT (.mk i ti ch) = i :: allIdsF ch from rfl, List.map_cons] at hnd
      exact (List.nodup_cons.mp hnd).2
    rw [to_json_list_acc (some (toString i)) ch dict hch hndch]
    rw [show entriesT par (.mk i ti ch) =
      entriesF (some (toString i)) ch ++
        [(toString i, to_json_without_children par (.mk i ti ch))] from rfl]
    rw [List.append_assoc]
theorem to_json_list_acc (par : Option String) (f : List RNode) :
    ∀ dict : List (String × NodeJson),
      (∀ k ∈ (allIdsF f).map toString, k ∉ dict.map Prod.fst) →
      ((allIdsF f).map toString).Nodup →
      to_json_list par f dict = dict ++ entriesF par f := by
  cases f with
  | nil => intro dict _ _; simp [to_json_list, entriesF]
  | cons c cs =>
    intro dict hdisj hnd
    rw [show allIdsF (c :: cs) = allIdsT c ++ allIdsF cs from rfl,
      List.map_append] at hdisj hnd
    have hndc := (List.nodup_append.mp hnd).1
    have hndcs := (List.nodup_append.mp hnd).2.1
    have hdisj2 := (List.nodup_append.mp hnd).2.2
    rw [show to_json_list par (c :: cs) dict =
      to_json_list par cs (to_json par c dict) from rfl]
    rw [to_json_acc par c dict
      (fun k hk => hdisj k (List.mem_append.mpr (Or.inl hk))) hndc]
    rw [to_json_list_acc par cs (dict ++ entriesT par c) ?_ hndcs]
    · rw [show entriesF par (c :: cs) = entriesT par c ++ entriesF par cs from rfl]
      rw [List.append_assoc]
    · intro k hk
      rw [List.map_append, List.mem_append]
      rintro (hin | hin)
      · exact hdisj k (List.mem_append.mpr (Or.inr hk)) hin
      · have hkc : k ∈ (allIdsT c).map toString :=
          (entriesT_keys_perm par c).mem_iff.mp hin
        exact hdisj2 hkc hk
end

/-- **C8.** Serializing a tree whose root has a null parent reference
(`render_to_json` passes `none` for the root) and whose ids are distinct
produces a `nodeDict` in which every node reachable from the root appears
exactly once, keyed by the string form of its own id; every id referenced
in any parent or children field is itself a key of `nodeDict`; and the id
recorded as `rootId` in the metadata is the unique entry whose parent
field is null. -/
theorem render_to_json_wire_invariants (n : RNode)
    (hnd : ((allIdsT n).map toString).Nodup) :
    List.Perm ((render_to_json n).nodeDict.map Prod.fst)
      ((allIdsT n).map toString) ∧
    ((render_to_json n).nodeDict.map Prod.fst).Nodup ∧
    (∀ kv ∈ (render_to_json n).nodeDict, kv.2.id = kv.1) ∧
    (∀ kv ∈ (render_to_json n).nodeDict, ∀ cid ∈ kv.2.children,
      cid ∈ (render_to_json n).nodeDict.map Prod.fst) ∧
    (∀ kv ∈ (render_to_json n).nodeDict, ∀ pid, kv.2.parent = some pid →
      pid ∈ (render_to_json n).nodeDict.map Prod.fst) ∧
    ((render_to_json n).nodeDict.filter
      (fun kv => kv.2.parent = none)).map Prod.fst =
      [(render_to_json n).rootId] := by
  have hdict : (render_to_json n).nodeDict = entriesT none n := by
    rw [show (render_to_json n).nodeDict = to_json none n [] from rfl]
    rw [to_json_acc none n [] (by intro k _; simp) hnd]
    rfl
  have hperm : List.Perm ((render_to_json n).nodeDict.map Prod.fst)
      ((allIdsT n).map toString) := by
    rw [hdict]; exact entriesT_keys_perm none n
  refine ⟨hperm, hperm.nodup_iff.mpr hnd, ?_, ?_, ?_, ?_⟩
  · rw [hdict]; exact entriesT_id_eq_key none n
  · intro kv hkv cid hcid
    rw [hdict] at hkv
    exact hperm.mem_iff.mpr (entriesT_children_sub none n kv hkv cid hcid)
  · intro kv hkv pid hpid
    rw [hdict] at hkv
    rcases entriesT_parent_shape none n kv hkv with h | ⟨r, hr, hrmem⟩
    · rw [h] at hpid; cases hpid
    · rw [hr] at hpid
      cases hpid
      exact hperm.mem_iff.mpr hrmem
  · rw [hdict]
    cases n with
    | mk i ti ch =>
      rw [show entriesT none (.mk i ti ch) =
        entriesF (some (toString i)) ch ++
          [(toString i, to_json_without_children none (.mk i ti ch))] from rfl]
      rw [List.filter_append]
      have hnil : (entriesF (some (toString i)) ch).filter
          (fun kv => kv.2.parent = none) = [] := by
        rw [List.filter_eq_nil_iff]
        intro kv hkv
        rcases entriesF_parent_shape (some (toString i)) ch kv hkv with
          h | ⟨r, hr, _⟩
        · simp [h]
        · simp [hr]
      rw [hnil]
      simp only [to_json_without_children, render_to_json, List.nil_append,
        List.filter_cons]
      simp [RNode.nid]

/-- Witness for C8 at a three-node tree. -/
theorem render_to_json_wire_invariants_witness :
    List.Perm ((render_to_json
        (.mk 1 "r" [.mk 2 "a" [], .mk 3 "b" []])).nodeDict.map Prod.fst)
      ((allIdsT (.mk 1 "r" [.mk 2 "a" [], .mk 3 "b" []])).map toString) ∧
    ((render_to_json
        (.mk 1 "r" [.mk 2 "a" [], .mk 3 "b" []])).nodeDict.map Prod.fst).Nodup ∧
    (∀ kv ∈ (render_to_json
        (.mk 1 "r" [.mk 2 "a" [], .mk 3 "b" []])).nodeDict, kv.2.id = kv.1) ∧
    (∀ kv ∈ (render_to_json
        (.mk 1 "r" [.mk 2 "a" [], .mk 3 "b" []])).nodeDict,
      ∀ cid ∈ kv.2.children,
        cid ∈ (render_to_json
          (.mk 1 "r" [.mk 2 "a" [], .mk 3 "b" []])).nodeDict.map Prod.fst) ∧
    (∀ kv ∈ (render_to_json
        (.mk 1 "r" [.mk 2 "a" [], .mk 3 "b" []])).nodeDict,
      ∀ pid, kv.2.parent = some pid →
        pid ∈ (render_to_json
          (.mk 1 "r" [.mk 2 "a" [], .mk 3 "b" []])).nodeDict.map Prod.fst) ∧
    ((render_to_json (.mk 1 "r" [.mk 2 "a" [], .mk 3 "b" []])).nodeDict.filter
      (fun kv => kv.2.parent = none)).map Prod.fst =
      [(render_to_json (.mk 1 "r" [.mk 2 "a" [], .mk 3 "b" []])).rootId] :=
  render_to_json_wire_invariants (.mk 1 "r" [.mk 2 "a" [], .mk 3 "b" []])
    (by decide)

/-- **C6.** When the oracle reports at least one top-level candidate and at
least one candidate follows the last detected index, the trailing sublist
is processed twice with the last detected node as parent: once as that
node's scope (which runs through the end of the list) and once again in
the remaining-nodes step.  Hence the oracle is consulted at least twice
about that same sublist, and every trailing candidate is attached at least
twice. -/
theorem trailing_sublist_processed_twice
    (o : Oracle) (fuel p : Nat) (L : List Cand) (r : Run) (titles : List String)
    (ik : Nat) (ck : Cand)
    (hrun : find_and_attach_children o (fuel + 1) p L = .ok r)
    (hL : L ≠ [])
    (hgc : get_child_titles_from_llm o L = .ok titles)
    (hlast : (detect titles L).getLast? = some (ik, ck))
    (hrem : ¬ (L.drop (ik + 1)).isEmpty = true) :
    2 ≤ r.queries.count (L.drop (ik + 1)) ∧
    ∀ x ∈ L.drop (ik + 1), 2 ≤ r.ops.countP (fun op => op.child = x.id) := by
  unfold find_and_attach_children at hrun
  rw [if_neg (by simpa using hL)] at hrun
  split at hrun
  · rename_i e heq
    rw [hgc] at heq; cases heq
  · rename_i titles' heq
    rw [hgc] at heq
    cases heq
    split at hrun
    · rename_i ht
      rw [List.isEmpty_iff] at ht
      rw [ht, detect_nil_titles] at hlast
      cases hlast
    · split at hrun
      · rename_i hdet
        rw [hdet] at hlast
        cases hlast
      · rename_i i1 c1 dtl hdet
        split at hrun
        · cases hrun
        · rename_i loop hloop
          split at hrun
          · rename_i heqLast
            rw [heqLast] at hlast
            cases hlast
          · rename_i ik2 ck2 heqLast
            rw [heqLast] at hlast
            obtain ⟨hik, hck⟩ : ik = ik2 ∧ ck = ck2 := by
              simpa using hlast.symm
            subst hik
            subst hck
            split at hrun
            · rename_i e heq4
              split at heq4
              · cases heq4
              · cases hrun
            · rename_i step4 heq4
              rw [if_neg hrem] at heq4
              cases hrun
              have hremne : L.drop (ik + 1) ≠ [] := by
                simpa using hrem
              obtain ⟨r4, A, Aq, hr4, hops, hqs⟩ := attachLoop_last
                (find_and_attach_children o fuel) p L (detect titles L) loop
                ik ck hloop heqLast hrem
              have hstep4eq : step4 = r4 := by
                have := hr4.symm.trans heq4
                exact (Except.ok.inj this).symm
              subst hstep4eq
              obtain ⟨tl4, htl4⟩ :=
                find_and_attach_children_queries_head hr4 hremne
              constructor
              · simp only [hqs, htl4]
                simp [List.count_cons, List.count_append]
                split <;> omega
              · intro x hx
                obtain ⟨op, hopmem, hopx⟩ :=
                  find_and_attach_children_cover fuel o ck.id
                    (L.drop (ik + 1)) step4 hr4 x hx
                have hpos : 0 < step4.ops.countP (fun op => op.child = x.id) := by
                  rw [List.countP_pos_iff]
                  exact ⟨op, hopmem, by simpa using hopx⟩
                simp only [hops]
                rw [List.countP_append, List.countP_append, List.countP_append,
                  List.countP_cons]
                split <;> omega

/-- Witness for C6: on the list `[A, B, C]` (A and B share title `"T"`,
the oracle returns index 0) the trailing `[C]` is queried twice and C is
attached twice. -/
theorem trailing_sublist_processed_twice_witness :
    2 ≤ (Run.queries ⟨[⟨1, 0⟩, ⟨2, 0⟩, ⟨3, 2⟩, ⟨3, 2⟩],
        [[⟨1, "T", "x"⟩, ⟨2, "T", "y"⟩, ⟨3, "U", "z"⟩],
         [⟨3, "U", "z"⟩], [⟨3, "U", "z"⟩]],
        [.node ⟨1, "T", "x"⟩ [],
         .node ⟨2, "T", "y"⟩ [.node ⟨3, "U", "z"⟩ []]]⟩).count
      ([(⟨1, "T", "x"⟩ : Cand), ⟨2, "T", "y"⟩, ⟨3, "U", "z"⟩].drop (1 + 1)) ∧
    ∀ x ∈ [(⟨1, "T", "x"⟩ : Cand), ⟨2, "T", "y"⟩, ⟨3, "U", "z"⟩].drop (1 + 1),
      2 ≤ (Run.ops ⟨[⟨1, 0⟩, ⟨2, 0⟩, ⟨3, 2⟩, ⟨3, 2⟩],
        [[⟨1, "T", "x"⟩, ⟨2, "T", "y"⟩, ⟨3, "U", "z"⟩],
         [⟨3, "U", "z"⟩], [⟨3, "U", "z"⟩]],
        [.node ⟨1, "T", "x"⟩ [],
         .node ⟨2, "T", "y"⟩ [.node ⟨3, "U", "z"⟩ []]]⟩).countP
        (fun op => op.child = x.id) :=
  trailing_sublist_processed_twice
    (fun l => if l = [⟨1, "T", "x"⟩, ⟨2, "T", "y"⟩, ⟨3, "U", "z"⟩]
      then [0] else []) 3 0
    [⟨1, "T", "x"⟩, ⟨2, "T", "y"⟩, ⟨3, "U", "z"⟩]
    ⟨[⟨1, 0⟩, ⟨2, 0⟩, ⟨3, 2⟩, ⟨3, 2⟩],
        [[⟨1, "T", "x"⟩, ⟨2, "T", "y"⟩, ⟨3, "U", "z"⟩],
         [⟨3, "U", "z"⟩], [⟨3, "U", "z"⟩]],
        [.node ⟨1, "T", "x"⟩ [],
         .node ⟨2, "T", "y"⟩ [.node ⟨3, "U", "z"⟩ []]]⟩
    ["T"] 1 ⟨2, "T", "y"⟩ rfl (by decide) rfl rfl (by decide)

/-- **C3 (amended).** Reconstruction terminates: every recursive call
receives a strictly shorter candidate list, so fuel exceeding the list
length is never exhausted.  An oracle that returns the full index set
(its resolved titles cover every candidate) does not loop: every candidate
is attached as a direct child of the parent and the call completes
normally with a single oracle query — no self-referential-scope error is
raised. -/
theorem recursion_terminates_full_index_set_completes :
    (∀ (fuel : Nat) (o : Oracle) (p : Nat) (L : List Cand), L.length < fuel →
      find_and_attach_children o fuel p L ≠ .error "fuel exhausted") ∧
    (∀ (o : Oracle) (fuel p : Nat) (L : List Cand) (titles : List String),
      L ≠ [] → get_child_titles_from_llm o L = .ok titles → titles ≠ [] →
      (∀ c ∈ L, c.title ∈ titles) →
      find_and_attach_children o (fuel + 1) p L =
        .ok ⟨L.map (fun c => Op.mk c.id p), [L], L.map (fun c => PTree.node c [])⟩) :=
  ⟨find_and_attach_children_no_fuel_error, full_cover_attaches_all⟩

/-- Witness for the amended C3: the full-index-set oracle `[0, 1]` on a
two-candidate list completes normally. -/
theorem recursion_terminates_full_index_set_completes_witness :
    find_and_attach_children (fun _ => [0, 1]) 3 0 [⟨1, "a", ""⟩, ⟨2, "b", ""⟩] ≠
      .error "fuel exhausted" ∧
    find_and_attach_children (fun _ => [0, 1]) 3 0 [⟨1, "a", ""⟩, ⟨2, "b", ""⟩] =
      .ok ⟨[⟨1, 0⟩, ⟨2, 0⟩], [[⟨1, "a", ""⟩, ⟨2, "b", ""⟩]],
           [.node ⟨1, "a", ""⟩ [], .node ⟨2, "b", ""⟩ []]⟩ :=
  ⟨recursion_terminates_full_index_set_completes.1 3 (fun _ => [0, 1]) 0
      [⟨1, "a", ""⟩, ⟨2, "b", ""⟩] (by decide),
    recursion_terminates_full_index_set_completes.2 (fun _ => [0, 1]) 2 0
      [⟨1, "a", ""⟩, ⟨2, "b", ""⟩] ["a", "b"] (by decide) rfl (by decide)
      (by decide)⟩

/-- **C5 counterexample.** A section node whose children all carry a
`Summary`: the key-points call succeeds but the second, unguarded
short-summary chat call raises — the error propagates out of the worker
`f` instead of being caught (the claim said no error raised during a single
node's summary computation propagates out of `f`). -/
theorem worker_error_escapes_counterexample :
    generate_summary_for_node ⟨.ok [], .ok "t", .ok ["p"], .error "boom"⟩
        ⟨"", "S", "", [⟨"c", "", some SumAttr.init⟩], none⟩ =
      .error "boom" ∧
    generate_summary_for_node ⟨.ok ["p"], .error "boom2", .ok [], .ok "s"⟩
        ⟨"", "", "body", [], none⟩ =
      .error "boom2" :=
  ⟨rfl, rfl⟩

/-- **C5 (amended).** Only the key-points summary computation is guarded:
when it raises, the error is caught locally, the placeholder
`"Failed to generate summary"` is recorded in the node's `Summary` and the
worker still returns `true`.  The subsequent short-summary call (sections)
and title call (untitled leaves) are not guarded, and their errors
propagate out of the worker. -/
theorem worker_error_containment :
    (∀ (e sh : String) (n : WNode),
      ∃ n', generate_summary_for_section_node (.error e) (.ok sh) n = .ok n' ∧
        (ensureSummary n'.summary).content = some "Failed to generate summary") ∧
    (∀ (e : String) (oT : Except String String) (n : WNode), n.title ≠ "" →
      ∃ n', generate_summary_for_leaf_node (.error e) oT n = .ok n' ∧
        (ensureSummary n'.summary).content = some "Failed to generate summary") ∧
    (∀ (o : SummaryOracle) (e : String) (n : WNode), n.children ≠ [] →
      (∀ c ∈ n.children, c.summary ≠ none) →
      o.secPoints = .error e → o.secShort = .ok "s" →
      ∃ n', generate_summary_for_node o n = .ok (true, n') ∧
        (ensureSummary n'.summary).content = some "Failed to generate summary") ∧
    (∀ (oP : Except String (List String)) (e : String) (n : WNode),
      generate_summary_for_section_node oP (.error e) n = .error e) ∧
    (∀ (oP : Except String (List String)) (e : String) (n : WNode), n.title = "" →
      generate_summary_for_leaf_node oP (.error e) n = .error e) := by
  have hsec : ∀ (e sh : String) (n : WNode),
      ∃ n', generate_summary_for_section_node (.error e) (.ok sh) n = .ok n' ∧
        (ensureSummary n'.summary).content = some "Failed to generate summary" := by
    intro e sh n
    refine ⟨_, rfl, ?_⟩
    simp [ensureSummary]
  refine ⟨hsec, ?_, ?_, ?_, ?_⟩
  · intro e oT n htitle
    refine ⟨WNode.mk n.label n.title n.content n.children
        (some ⟨some "Failed to generate summary", (ensureSummary n.summary).short_content,
          (ensureSummary n.summary).summaries_with_evidence⟩),
      ?_, by simp [ensureSummary]⟩
    simp [generate_summary_for_leaf_node, htitle]
  · intro o e n hch hall hP hS
    obtain ⟨n', hn', hcontent⟩ := hsec e "s" n
    refine ⟨n', ?_, hcontent⟩
    unfold generate_summary_for_node
    rw [if_neg (fun hlen => hch (List.length_eq_zero.mp hlen))]
    rw [if_pos (List.length_pos.mpr hch)]
    rw [if_neg (by
      intro hany
      simp only [List.any_eq_true, decide_eq_true_eq] at hany
      obtain ⟨c, hcmem, hcnone⟩ := hany
      exact hall c hcmem hcnone)]
    rw [hP, hS, except_bind_ok]
    exact ⟨n', hn', rfl⟩
  · intro oP e n
    unfold generate_summary_for_section_node
    cases oP <;> rfl
  · intro oP e n htitle
    cases oP <;> simp [generate_summary_for_leaf_node, htitle]

/-- Witness for the amended C5 at concrete nodes and oracle outcomes. -/
theorem worker_error_containment_witness :
    (∃ n', generate_summary_for_section_node (.error "x") (.ok "s")
        (⟨"", "S", "", [⟨"c", "", some SumAttr.init⟩], none⟩ : WNode) = .ok n' ∧
      (ensureSummary n'.summary).content = some "Failed to generate summary") ∧
    generate_summary_for_leaf_node (.ok ["p"]) (.error "boom")
        (⟨"", "", "body", [], none⟩ : WNode) = .error "boom" :=
  ⟨worker_error_containment.1 "x" "s" ⟨"", "S", "", [⟨"c", "", some SumAttr.init⟩], none⟩,
    worker_error_containment.2.2.2.2 (.ok ["p"]) "boom" ⟨"", "", "body", [], none⟩ rfl⟩

/-- **C2.** For every flat candidate list with duplicate-free ids and every
oracle stub, a successful run of the Hierarchy Reconstructor places each
candidate into the resulting tree exactly once and preserves the original
relative order: replaying the run's `change_parent` operations from the
initial state and traversing the children structure depth-first from the
parent yields the parent followed by exactly the candidate ids, in their
original list order (no candidate is dropped, none is duplicated, none is
reordered). -/
theorem reconstruction_preserves_candidates (o : Oracle) (fuel p : Nat)
    (L : List Cand) (r : Run)
    (hok : find_and_attach_children o fuel p L = .ok r)
    (hnd : (idsOf L).Nodup) (hp : p ∉ idsOf L) :
    dfs (applyOps initSt r.ops) (L.length + 1) p = p :: idsOf L := by
  obtain ⟨hflat, hsem⟩ := faac_sem o fuel p L r hok hnd hp
  have hchar := hsem initSt (coherent_initSt (idsOf L))
  have hch0 : ∀ q, (applyOps initSt r.ops).children q =
      (if q = p then rootIds r.forest else []) ++ chAssignF q r.forest := by
    intro q
    rw [hchar q]
    rfl
  have hch1 : ∀ q, q ∈ flattenT (PTree.node ⟨p, "", ""⟩ r.forest) →
      (applyOps initSt r.ops).children q =
        chAssignT q (PTree.node ⟨p, "", ""⟩ r.forest) := by
    intro q _
    rw [hch0 q, show chAssignT q (PTree.node ⟨p, "", ""⟩ r.forest) =
      (if p = q then rootIds r.forest else []) ++ chAssignF q r.forest from rfl]
    by_cases hqp : q = p
    · subst hqp
      simp
    · rw [if_neg hqp, if_neg (fun he => hqp he.symm)]
  have hft : flattenT (PTree.node ⟨p, "", ""⟩ r.forest) = p :: idsOf L := by
    rw [show flattenT (PTree.node ⟨p, "", ""⟩ r.forest) =
      p :: flattenF r.forest from rfl, hflat]
  have hndt : (flattenT (PTree.node ⟨p, "", ""⟩ r.forest)).Nodup := by
    rw [hft]
    exact List.nodup_cons.mpr ⟨hp, hnd⟩
  have hh : heightT (PTree.node ⟨p, "", ""⟩ r.forest) ≤ L.length + 1 := by
    rw [show heightT (PTree.node ⟨p, "", ""⟩ r.forest) =
      heightF r.forest + 1 from rfl]
    have h1 := heightF_le_flatten_length r.forest
    rw [hflat] at h1
    have h2 : (idsOf L).length = L.length := List.length_map _ _
    omega
  have hres := dfs_realizes_T (applyOps initSt r.ops)
    (PTree.node ⟨p, "", ""⟩ r.forest) (L.length + 1) hh hndt hch1
  rw [show rootId (PTree.node ⟨p, "", ""⟩ r.forest) = p from rfl] at hres
  rw [hres, hft]

/-- Witness for C2: a two-candidate list where the oracle nests the second
candidate under the first; the realised tree traversal is `[0, 1, 2]` —
both candidates present exactly once, in order, under the parent `0`. -/
theorem reconstruction_preserves_candidates_witness :
    find_and_attach_children (fun _ => [0]) 3 0
        [⟨1, "T", "x"⟩, ⟨2, "U", "y"⟩] =
      .ok ⟨[⟨1, 0⟩, ⟨2, 1⟩, ⟨2, 1⟩],
           [[⟨1, "T", "x"⟩, ⟨2, "U", "y"⟩], [⟨2, "U", "y"⟩], [⟨2, "U", "y"⟩]],
           [.node ⟨1, "T", "x"⟩ [.node ⟨2, "U", "y"⟩ []]]⟩ ∧
    (idsOf [Cand.mk 1 "T" "x", Cand.mk 2 "U" "y"]).Nodup ∧
    0 ∉ idsOf [Cand.mk 1 "T" "x", Cand.mk 2 "U" "y"] ∧
    dfs (applyOps initSt [⟨1, 0⟩, ⟨2, 1⟩, ⟨2, 1⟩])
        ([Cand.mk 1 "T" "x", Cand.mk 2 "U" "y"].length + 1) 0 =
      0 :: idsOf [Cand.mk 1 "T" "x", Cand.mk 2 "U" "y"] :=
  ⟨rfl, by decide, by decide,
    reconstruction_preserves_candidates (fun _ => [0]) 3 0
      [⟨1, "T", "x"⟩, ⟨2, "U", "y"⟩]
      ⟨[⟨1, 0⟩, ⟨2, 1⟩, ⟨2, 1⟩],
       [[⟨1, "T", "x"⟩, ⟨2, "U", "y"⟩], [⟨2, "U", "y"⟩], [⟨2, "U", "y"⟩]],
       [.node ⟨1, "T", "x"⟩ [.node ⟨2, "U", "y"⟩ []]]⟩
      rfl (by decide) (by decide)⟩

end SuperReader
